import Mathlib

/-!
# Verification of the pdf-edit page-note mapper and autosave scheduler

This file embeds, over `List Char`, the string-manipulation core of the
repository's page-note synchronisation logic and its debounced autosave
scheduler, and proves or refutes the specification's claims about them.

Embedded code:
* `loadNotes` (src/unnamed/part_003, lines 935-949): extraction of a page's
  note section via the regex `## Page N\n([\s\S]*?)(?=## Page|$)` (no `m`
  flag, first match, group trimmed).
* `saveNotes` (src/unnamed/part_003, lines 951-979): upsert of a page's
  section via `test`/`replace` on `## Page N\n[\s\S]*?(?=## Page|$)`,
  replacement string `("## Page N\n" + notes + "\n\n").trim()` (JavaScript
  `replace` dollar-substitution included).
* `parseExistingNotes` (src/main.ts, lines 545-561): split on the multiline
  regex `^## Page (\d+)$`, trimming each piece and dropping the
  `_No notes for this page_` placeholder.  The line model splits at `'\n'`;
  since the `m`-flag anchors also match around CR, LS and PS, theorems on
  this side carry a `noAltLineTerm` hypothesis confining them to documents
  whose only line terminator is `'\n'`, where the model is exact.
* `saveAllNotesToFile` (src/main.ts, lines 520-543): render of the full
  notes document from the in-memory page map.
* `debouncedSave` (src/main.ts, lines 602-610) and `onClose`
  (src/main.ts, lines 822-839): the debounce timer and close-time save;
  `onClose` nulls `this.currentPdf` but neither the timer nor
  `this.currentNotesFile`, so a timer firing after close writes a document
  rendered with `this.currentPdf?.numPages || 0 = 0` pages.

JavaScript strings are embedded as `List Char`; regex matching for the fixed
patterns above is embedded by explicit first-occurrence search, which is
exact for these patterns (the lazy group extends to the first position where
the lookahead `## Page` or end-of-string holds, and a full match starts at a
position iff the literal marker occurs there).
-/

namespace PdfNotes

/-- `String.data` shorthand: a JavaScript string literal as a `List Char`. -/
def S (s : String) : List Char := s.data

/-- The characters treated as whitespace by JavaScript's
`String.prototype.trim` (ECMAScript WhiteSpace ∪ LineTerminator). -/
def isJsWs (c : Char) : Bool :=
  c.toNat = 32 || c.toNat = 9 || c.toNat = 10 || c.toNat = 13 ||
  c.toNat = 11 || c.toNat = 12 || c.toNat = 160 || c.toNat = 5760 ||
  (8192 ≤ c.toNat && c.toNat ≤ 8202) || c.toNat = 8239 || c.toNat = 8287 ||
  c.toNat = 12288 || c.toNat = 65279 || c.toNat = 8232 || c.toNat = 8233

/-- Strip leading JavaScript whitespace. -/
def trimStart (s : List Char) : List Char := s.dropWhile isJsWs

/-- Strip trailing JavaScript whitespace. -/
def trimEnd (s : List Char) : List Char := (s.reverse.dropWhile isJsWs).reverse

/-- JavaScript `String.prototype.trim`. -/
def trimJs (s : List Char) : List Char := trimEnd (trimStart s)

/-- The decimal digit character for `n` (defined on `n ≤ 9`; larger inputs
are clamped to `'9'`, a case never reached by `natToDigits`). -/
def digitChar (n : Nat) : Char :=
  match n with
  | 0 => '0' | 1 => '1' | 2 => '2' | 3 => '3' | 4 => '4'
  | 5 => '5' | 6 => '6' | 7 => '7' | 8 => '8' | _ => '9'

/-- Fuel-driven digit accumulator (structural recursion, so that concrete
documents evaluate by `decide`).  The fuel is always at least `n`, so the
fuel-exhausted branch is only reached with `n < 10`. -/
def natToDigitsAux : Nat → Nat → List Char → List Char
  | 0, n, acc => digitChar n :: acc
  | fuel + 1, n, acc =>
    if n < 10 then digitChar n :: acc
    else natToDigitsAux fuel (n / 10) (digitChar (n % 10) :: acc)

/-- Decimal representation of a natural number, as produced by JavaScript
template interpolation of an integer (`${n}`). -/
def natToDigits (n : Nat) : List Char := natToDigitsAux n n []

/-- `parseInt` on a string of decimal digits. -/
def digitsVal (l : List Char) : Nat :=
  l.foldl (fun a c => 10 * a + (c.toNat - 48)) 0

/-- First index at which `pat` occurs as a contiguous substring of `s`
(the index at which a JavaScript regex made of the literal `pat` matches). -/
def firstOcc (pat : List Char) : List Char → Option Nat
  | [] => if pat.isEmpty then some 0 else none
  | c :: t => if pat.isPrefixOf (c :: t) then some 0 else (firstOcc pat t).map (· + 1)

/-- `pat` occurs somewhere in `s`. -/
def hasSub (pat s : List Char) : Prop := (firstOcc pat s).isSome

instance (pat s : List Char) : Decidable (hasSub pat s) := by
  unfold hasSub; infer_instance

/-- The page-marker string `"## Page N\n"` that the part_003 regexes search
for: the literal header followed by the newline the regex requires. -/
def marker (p : Nat) : List Char := S "## Page " ++ natToDigits p ++ ['\n']

/-- The lookahead pattern `"## Page"` of `(?=## Page|$)`. -/
def p7 : List Char := S "## Page"

/-- JavaScript `String.prototype.replace` dollar-substitution for a
replacement string, for a pattern with no capture groups: `$$`, `$&`
(the matched text), a backtick after `$` (the text before the match), and
an apostrophe after `$` (the text after the match) are special; everything
else is copied verbatim. -/
def subst (matched before after : List Char) : List Char → List Char
  | [] => []
  | c :: t =>
    if c = '$' then
      match t with
      | [] => [c]
      | d :: t2 =>
        if d = '$' then '$' :: subst matched before after t2
        else if d = '&' then matched ++ subst matched before after t2
        else if d = Char.ofNat 96 then before ++ subst matched before after t2
        else if d = Char.ofNat 39 then after ++ subst matched before after t2
        else c :: subst matched before after (d :: t2)
    else c :: subst matched before after t

/-- `loadNotes` (part_003, 935-949), pure core: match
`## Page N\n([\s\S]*?)(?=## Page|$)` against the file content and return the
trimmed first group, or `none` when there is no match.  The regex has no
`m` flag, so `$` is end-of-string and the lazy group runs to the first
occurrence of `"## Page"` (anywhere, not only at line starts) or to the end. -/
def loadNotesExtract (content : List Char) (p : Nat) : Option (List Char) :=
  match firstOcc (marker p) content with
  | none => none
  | some i =>
    let rest := content.drop (i + (marker p).length)
    let j := (firstOcc p7 rest).getD rest.length
    some (trimJs (rest.take j))

/-- The string `` `${pageHeader}\n${notes}\n\n` `` built by `saveNotes`. -/
def newPageContent (p : Nat) (notes : List Char) : List Char :=
  marker p ++ notes ++ ['\n', '\n']

/-- `saveNotes` (part_003, 951-979), pure core: if
`## Page N\n[\s\S]*?(?=## Page|$)` matches the content, replace the first
match with `newPageContent.trim()` (JavaScript `replace`, including
dollar-substitution); otherwise append `newPageContent`. -/
def saveNotesUpsert (content : List Char) (p : Nat) (notes : List Char) : List Char :=
  match firstOcc (marker p) content with
  | none => content ++ newPageContent p notes
  | some i =>
    let pre := content.take i
    let rest := content.drop (i + (marker p).length)
    let j := (firstOcc p7 rest).getD rest.length
    let matched := marker p ++ rest.take j
    let suf := rest.drop j
    pre ++ subst matched pre suf (trimJs (newPageContent p notes)) ++ suf

/-- Split a string into lines at `'\n'`.  The multiline anchors `^`/`$` of
`parseExistingNotes`' regex also match around the other ECMAScript
LineTerminator characters — CR, LS and PS — so this split models the
anchors exactly on strings free of those three; theorems about the parse
side carry a `noAltLineTerm` hypothesis restricting to that domain. -/
def splitLines : List Char → List (List Char)
  | [] => [[]]
  | c :: t =>
    if c = '\n' then [] :: splitLines t
    else
      match splitLines t with
      | [] => [[c]]
      | l :: ls => (c :: l) :: ls

/-- Join lines back with `'\n'` separators. -/
def joinLines : List (List Char) → List Char
  | [] => []
  | [l] => l
  | l :: ls => l ++ '\n' :: joinLines ls

/-- A line matching `^## Page (\d+)$`: the literal prefix `"## Page "`
followed by one or more digits and nothing else.  Returns the parsed page
number (`parseInt` of the digits). -/
def markerLineNum (l : List Char) : Option Nat :=
  if (S "## Page ").isPrefixOf l then
    let ds := l.drop 8
    if !ds.isEmpty && ds.all Char.isDigit then some (digitsVal ds) else none
  else none

/-- The placeholder text written for pages without notes. -/
def placeholder : List Char := S "_No notes for this page_"

/-- Walk the lines of the document, as `content.split(/^## Page (\d+)$/gm)`
followed by the assignment loop of `parseExistingNotes` does: each marker
line ends the previous page's piece (which is trimmed) and starts a new one.
Returns the `(page, trimmed piece)` assignments in document order. -/
def parseGo : List (List Char) → Option (Nat × List (List Char)) → List (Nat × List Char)
  | [], none => []
  | [], some (p, acc) => [(p, trimJs (joinLines acc.reverse))]
  | l :: ls, cur =>
    match markerLineNum l with
    | some q =>
      (match cur with
       | none => []
       | some (p, acc) => [(p, trimJs (joinLines acc.reverse))]) ++ parseGo ls (some (q, []))
    | none =>
      match cur with
      | none => parseGo ls none
      | some (p, acc) => parseGo ls (some (p, l :: acc))

/-- `parseExistingNotes` (main.ts, 545-561): the `(page, content)` assignments
actually performed on `this.pageNotes`, i.e. the parsed assignments with the
placeholder pieces skipped. -/
def parseExistingAssigns (content : List Char) : List (Nat × List Char) :=
  (parseGo (splitLines content) none).filter (fun e => !(e.2 == placeholder))

/-- The value held by a record after a sequence of assignments: the last
assignment to the key wins. -/
def lookupLast (l : List (Nat × List Char)) (p : Nat) : Option (List Char) :=
  match l with
  | [] => none
  | e :: t =>
    match lookupLast t p with
    | some v => some v
    | none => if e.1 = p then some e.2 else none

/-- `this.pageNotes[p]` after `parseExistingNotes(content)` ran. -/
def pageNotesOf (content : List Char) (p : Nat) : Option (List Char) :=
  lookupLast (parseExistingAssigns content) p

/-- One page's chunk of the document written by `saveAllNotesToFile`
(main.ts, 532-540): header line, blank line, then the page's notes (when
the entry is truthy, i.e. present and non-empty) or the placeholder. -/
def notesSection (notes : Nat → Option (List Char)) (p : Nat) : List Char :=
  S "## Page " ++ natToDigits p ++ S "\n\n" ++
  (match notes p with
   | some s => if s.isEmpty then placeholder ++ S "\n\n" else s ++ S "\n\n"
   | none => placeholder ++ S "\n\n")

/-- `saveAllNotesToFile` (main.ts, 520-543), pure core: the full document
text compiled from the in-memory page map. -/
def saveAllContent (pdfName fileName : List Char) (numPages : Nat)
    (notes : Nat → Option (List Char)) : List Char :=
  S "# " ++ pdfName ++ S " - Notes\n\n**PDF:** [[" ++ fileName ++
  S "]]\n**Total Pages:** " ++ natToDigits numPages ++ S "\n\n" ++
  (((List.range' 1 numPages).map (notesSection notes)).flatten)

/-- The in-memory map resulting from a sequence of
`this.pageNotes[p] = body` updates (the in-editor upserts). -/
def applyUpserts (l : List (Nat × List Char)) : Nat → Option (List Char) :=
  fun p => lookupLast l p

/-! ### The decimal embedding -/

theorem natToDigitsAux_acc (fuel : Nat) : ∀ (n : Nat) (acc : List Char),
    natToDigitsAux fuel n acc = natToDigitsAux fuel n [] ++ acc := by
  induction fuel with
  | zero => intro n acc; rfl
  | succ f ih =>
    intro n acc
    by_cases h : n < 10
    · simp [natToDigitsAux, h]
    · simp only [natToDigitsAux, if_neg h]
      rw [ih (n / 10) (digitChar (n % 10) :: acc), ih (n / 10) [digitChar (n % 10)]]
      simp

theorem natToDigitsAux_fuel : ∀ (n f1 f2 : Nat), n ≤ f1 → n ≤ f2 → ∀ acc,
    natToDigitsAux f1 n acc = natToDigitsAux f2 n acc := by
  intro n
  induction n using Nat.strong_induction_on with
  | _ n ih =>
    intro f1 f2 h1 h2 acc
    by_cases h : n < 10
    · cases f1 <;> cases f2 <;> simp [natToDigitsAux, h]
    · have hdiv : n / 10 < n := Nat.div_lt_self (by omega) (by omega)
      obtain ⟨g1, rfl⟩ : ∃ g, f1 = g + 1 := ⟨f1 - 1, by omega⟩
      obtain ⟨g2, rfl⟩ : ∃ g, f2 = g + 1 := ⟨f2 - 1, by omega⟩
      simp only [natToDigitsAux, if_neg h]
      exact ih (n / 10) hdiv g1 g2 (by omega) (by omega) _

/-- Characteristic equation of `natToDigits`. -/
theorem natToDigits_eq (n : Nat) :
    natToDigits n =
      if n < 10 then [digitChar n] else natToDigits (n / 10) ++ [digitChar (n % 10)] := by
  by_cases h : n < 10
  · rw [if_pos h]
    cases n with
    | zero => rfl
    | succ k => simp [natToDigits, natToDigitsAux, h]
  · rw [if_neg h]
    have hdiv : n / 10 < n := Nat.div_lt_self (by omega) (by omega)
    obtain ⟨g, hg⟩ : ∃ g, n = g + 1 := ⟨n - 1, by omega⟩
    conv_lhs => rw [natToDigits, hg]
    rw [show natToDigitsAux (g + 1) (g + 1) [] =
          natToDigitsAux g ((g + 1) / 10) (digitChar ((g + 1) % 10) :: []) by
        simp [natToDigitsAux, hg ▸ h]]
    rw [natToDigitsAux_acc, ← hg]
    rw [natToDigitsAux_fuel (n / 10) g (n / 10) (by omega) (by omega)]
    rfl

theorem digitChar_isDigit (m : Nat) : (digitChar m).isDigit = true := by
  rcases m with _ | _ | _ | _ | _ | _ | _ | _ | _ | m <;> rfl

theorem digitChar_toNat (m : Nat) (h : m < 10) : (digitChar m).toNat = 48 + m := by
  interval_cases m <;> decide

theorem natToDigits_digits (n : Nat) : ∀ c ∈ natToDigits n, c.isDigit = true := by
  induction n using Nat.strong_induction_on with
  | _ n ih =>
    rw [natToDigits_eq]
    by_cases h : n < 10
    · simpa [h] using digitChar_isDigit n
    · rw [if_neg h]
      intro c hc
      rcases List.mem_append.mp hc with hc | hc
      · exact ih (n / 10) (Nat.div_lt_self (by omega) (by omega)) c hc
      · simp only [List.mem_singleton] at hc
        exact hc ▸ digitChar_isDigit (n % 10)

theorem digitsVal_append_single (l : List Char) (c : Char) :
    digitsVal (l ++ [c]) = 10 * digitsVal l + (c.toNat - 48) := by
  simp [digitsVal, List.foldl_append]

theorem digitsVal_natToDigits (n : Nat) : digitsVal (natToDigits n) = n := by
  induction n using Nat.strong_induction_on with
  | _ n ih =>
    rw [natToDigits_eq]
    by_cases h : n < 10
    · simp only [if_pos h, digitsVal, List.foldl_cons, List.foldl_nil]
      rw [digitChar_toNat n h]; omega
    · rw [if_neg h, digitsVal_append_single,
        ih (n / 10) (Nat.div_lt_self (by omega) (by omega)),
        digitChar_toNat (n % 10) (by omega)]
      omega

theorem natToDigits_inj {a b : Nat} (h : natToDigits a = natToDigits b) : a = b := by
  have ha := digitsVal_natToDigits a
  rw [h, digitsVal_natToDigits] at ha
  omega

theorem natToDigits_ne_nil (n : Nat) : natToDigits n ≠ [] := by
  rw [natToDigits_eq]
  by_cases h : n < 10 <;> simp [h]

/-! ### Character classes -/

theorem isDigit_toNat {c : Char} (h : c.isDigit = true) :
    48 ≤ c.toNat ∧ c.toNat ≤ 57 := by
  simpa [Char.isDigit] using h

theorem isDigit_not_ws {c : Char} (h : c.isDigit = true) : isJsWs c = false := by
  obtain ⟨h1, h2⟩ := isDigit_toNat h
  simp only [isJsWs, Bool.or_eq_false_iff, Bool.and_eq_false_iff,
    decide_eq_false_iff_not]
  omega

theorem isDigit_ne_sharp {c : Char} (h : c.isDigit = true) : c ≠ '#' := by
  intro hc; subst hc; simp at h

theorem isDigit_ne_newline {c : Char} (h : c.isDigit = true) : c ≠ '\n' := by
  intro hc; subst hc; simp at h

/-! ### First-occurrence search -/

theorem firstOcc_isPrefix {pat s : List Char} {i : Nat}
    (h : firstOcc pat s = some i) : pat <+: s.drop i := by
  induction s generalizing i with
  | nil =>
    unfold firstOcc at h
    split at h
    · obtain rfl : (0 : Nat) = i := Option.some.inj h
      simp_all [List.isEmpty_iff]
    · exact absurd h (by simp)
  | cons c t ih =>
    unfold firstOcc at h
    split at h
    · next hp =>
      obtain rfl : (0 : Nat) = i := Option.some.inj h
      simpa using List.isPrefixOf_iff_prefix.mp hp
    · obtain ⟨j, hj, rfl⟩ : ∃ j, firstOcc pat t = some j ∧ j + 1 = i := by
        simpa using h
      simpa using ih hj

theorem firstOcc_some_le {pat s : List Char} {i : Nat}
    (h : firstOcc pat s = some i) : i ≤ s.length := by
  induction s generalizing i with
  | nil =>
    unfold firstOcc at h
    split at h
    · obtain rfl : (0 : Nat) = i := Option.some.inj h; simp
    · exact absurd h (by simp)
  | cons c t ih =>
    unfold firstOcc at h
    split at h
    · obtain rfl : (0 : Nat) = i := Option.some.inj h; simp
    · obtain ⟨j, hj, rfl⟩ : ∃ j, firstOcc pat t = some j ∧ j + 1 = i := by
        simpa using h
      have := ih hj
      simp; omega

theorem firstOcc_min {pat s : List Char} {i : Nat}
    (h : firstOcc pat s = some i) : ∀ t < i, ¬ pat <+: s.drop t := by
  induction s generalizing i with
  | nil =>
    unfold firstOcc at h
    split at h
    · obtain rfl : (0 : Nat) = i := Option.some.inj h; omega
    · exact absurd h (by simp)
  | cons c t ih =>
    unfold firstOcc at h
    split at h
    · obtain rfl : (0 : Nat) = i := Option.some.inj h; omega
    · next hp =>
      obtain ⟨j, hj, rfl⟩ : ∃ j, firstOcc pat t = some j ∧ j + 1 = i := by
        simpa using h
      intro u hu
      cases u with
      | zero =>
        simpa using fun hcon => hp (List.isPrefixOf_iff_prefix.mpr hcon)
      | succ v =>
        simpa using ih hj v (by omega)

theorem firstOcc_none {pat s : List Char}
    (h : firstOcc pat s = none) : ∀ t, ¬ pat <+: s.drop t := by
  induction s with
  | nil =>
    unfold firstOcc at h
    split at h
    · exact absurd h (by simp)
    · next hne =>
      intro t hcon
      rw [List.drop_nil] at hcon
      exact hne (by simpa [List.isEmpty_iff] using List.prefix_nil.mp hcon)
  | cons c t ih =>
    unfold firstOcc at h
    split at h
    · exact absurd h (by simp)
    · next hp =>
      have hnone : firstOcc pat t = none := by
        cases hfo : firstOcc pat t <;> simp [hfo] at h ⊢
      intro u
      cases u with
      | zero =>
        simpa using fun hcon => hp (List.isPrefixOf_iff_prefix.mpr hcon)
      | succ v =>
        simpa using ih hnone v

theorem firstOcc_zero {pat s : List Char} (h : pat <+: s) :
    firstOcc pat s = some 0 := by
  cases s with
  | nil =>
    have : pat = [] := List.prefix_nil.mp h
    simp [firstOcc, this]
  | cons c t =>
    unfold firstOcc
    rw [if_pos (List.isPrefixOf_iff_prefix.mpr h)]

theorem firstOcc_cons_neg {pat : List Char} {c : Char} {t : List Char}
    (h : ¬ pat <+: (c :: t)) :
    firstOcc pat (c :: t) = (firstOcc pat t).map (· + 1) := by
  simp only [firstOcc]
  rw [if_neg (fun hp => h (List.isPrefixOf_iff_prefix.mp hp))]

theorem firstOcc_eq_some {pat s : List Char} {i : Nat}
    (hocc : pat <+: s.drop i) (hmin : ∀ t < i, ¬ pat <+: s.drop t) :
    firstOcc pat s = some i := by
  induction i generalizing s with
  | zero => exact firstOcc_zero (by simpa using hocc)
  | succ j ih =>
    cases s with
    | nil =>
      exfalso
      apply hmin 0 (by omega)
      rw [List.drop_nil] at hocc ⊢
      exact hocc
    | cons c t =>
      have h0 : ¬ pat <+: (c :: t) := by simpa using hmin 0 (by omega)
      rw [firstOcc_cons_neg h0,
        ih (by simpa using hocc) (fun u hu => by simpa using hmin (u + 1) (by omega))]
      rfl

/-! ### Prefix and append utilities -/

theorem prefix_extend {pat x : List Char} (y : List Char) (h : pat <+: x) :
    pat <+: x ++ y := h.trans (List.prefix_append x y)

theorem prefix_of_append_of_le {pat x y : List Char} (h : pat <+: x ++ y)
    (hl : pat.length ≤ x.length) : pat <+: x := by
  rw [List.prefix_iff_eq_take] at h ⊢
  rwa [List.take_append_of_le_length hl] at h

theorem prefix_split_of_append {pat x y : List Char} (h : pat <+: x ++ y)
    (hl : x.length < pat.length) : pat.drop x.length <+: y := by
  rw [List.prefix_iff_eq_take] at h
  rw [List.take_append_eq_append_take, List.take_of_length_le (by omega)] at h
  rw [h, List.drop_left]
  exact List.take_prefix _ y

/-! ### Shape of the marker patterns

Both `marker p = "## Page p\n"` and `p7 = "## Page"` start with `"##"` and
contain no further `'#'`; the next two lemmas capture the consequence that
no occurrence of such a pattern can straddle a position inside another
(occurrences cannot start strictly inside a marker, and a marker cannot
end strictly inside one). -/

theorem span_left {rest w z : List Char} (hmem : '#' ∉ rest) (hne : rest ≠ [])
    {k : Nat} (h0 : 0 < k) (hk : k < ('#' :: '#' :: rest).length) :
    ¬ (('#' :: '#' :: w) <+: (('#' :: '#' :: rest).drop k ++ z)) := by
  intro h
  match k, h0 with
  | 1, _ =>
    rw [List.drop_succ_cons, List.drop_zero] at h
    rw [List.cons_append] at h
    obtain ⟨-, h⟩ := List.cons_prefix_cons.mp h
    cases hr : rest with
    | nil => exact hne hr
    | cons d ds =>
      rw [hr, List.cons_append] at h
      obtain ⟨hd, -⟩ := List.cons_prefix_cons.mp h
      exact hmem (by rw [hr, ← hd]; exact List.mem_cons_self '#' ds)
  | (j + 2), _ =>
    rw [List.drop_succ_cons, List.drop_succ_cons] at h
    simp only [List.length_cons] at hk
    cases hd : rest.drop j with
    | nil => rw [List.drop_eq_nil_iff] at hd; omega
    | cons d ds =>
      rw [hd, List.cons_append] at h
      obtain ⟨hds, -⟩ := List.cons_prefix_cons.mp h
      exact hmem (List.drop_subset j rest (by rw [hd, ← hds]; exact List.mem_cons_self '#' ds))

theorem span_right {rest w : List Char} (hmem : '#' ∉ rest) (hne : rest ≠ [])
    {k : Nat} (h0 : 0 < k) (hk : k < ('#' :: '#' :: rest).length) :
    ¬ (('#' :: '#' :: rest).drop k <+: ('#' :: '#' :: w)) := by
  intro h
  match k, h0 with
  | 1, _ =>
    rw [List.drop_succ_cons, List.drop_zero] at h
    obtain ⟨-, h⟩ := List.cons_prefix_cons.mp h
    cases hr : rest with
    | nil => exact hne hr
    | cons d ds =>
      rw [hr] at h
      obtain ⟨hd, -⟩ := List.cons_prefix_cons.mp h
      exact hmem (by rw [hr, hd]; exact List.mem_cons_self '#' ds)
  | (j + 2), _ =>
    rw [List.drop_succ_cons, List.drop_succ_cons] at h
    simp only [List.length_cons] at hk
    cases hd : rest.drop j with
    | nil => rw [List.drop_eq_nil_iff] at hd; omega
    | cons d ds =>
      rw [hd] at h
      obtain ⟨hds, -⟩ := List.cons_prefix_cons.mp h
      exact hmem (List.drop_subset j rest (by rw [hd, hds]; exact List.mem_cons_self '#' ds))

/-- The characters of `marker p` after the two leading `'#'`. -/
def markerTail (p : Nat) : List Char :=
  ' ' :: 'P' :: 'a' :: 'g' :: 'e' :: ' ' :: (natToDigits p ++ ['\n'])

theorem marker_eq_cons (p : Nat) : marker p = '#' :: '#' :: markerTail p := rfl

theorem p7_eq_cons : p7 = '#' :: '#' :: [' ', 'P', 'a', 'g', 'e'] := rfl

theorem sharp_not_mem_markerTail (p : Nat) : '#' ∉ markerTail p := by
  intro h
  simp only [markerTail, List.mem_cons, List.mem_append, List.mem_singleton] at h
  rcases h with h | h | h | h | h | h | h | h
  all_goals first
  | exact absurd h (by decide)
  | exact absurd rfl (isDigit_ne_sharp (natToDigits_digits p _ h))

theorem markerTail_ne_nil (p : Nat) : markerTail p ≠ [] := by
  simp [markerTail]

theorem p7_prefix_marker (p : Nat) : p7 <+: marker p :=
  ⟨' ' :: (natToDigits p ++ ['\n']), rfl⟩

theorem marker_length (p : Nat) : 8 ≤ (marker p).length := by
  rw [marker_eq_cons]
  simp [markerTail]

/-- No occurrence of a `"##"`-headed pattern can begin strictly inside
`marker p`. -/
theorem marker_span_left {w z : List Char} (p : Nat) {k : Nat} (h0 : 0 < k)
    (hk : k < (marker p).length) :
    ¬ (('#' :: '#' :: w) <+: ((marker p).drop k ++ z)) := by
  rw [marker_eq_cons] at hk ⊢
  exact span_left (sharp_not_mem_markerTail p) (markerTail_ne_nil p) h0 hk

/-- No suffix of `marker p` starting strictly inside it is a prefix of a
`"##"`-headed string. -/
theorem marker_span_right {w : List Char} (p : Nat) {k : Nat} (h0 : 0 < k)
    (hk : k < (marker p).length) :
    ¬ ((marker p).drop k <+: ('#' :: '#' :: w)) := by
  rw [marker_eq_cons] at hk ⊢
  exact span_right (sharp_not_mem_markerTail p) (markerTail_ne_nil p) h0 hk

theorem p7_span_left {w z : List Char} {k : Nat} (h0 : 0 < k)
    (hk : k < p7.length) :
    ¬ (('#' :: '#' :: w) <+: (p7.drop k ++ z)) := by
  rw [p7_eq_cons] at hk ⊢
  exact span_left (by decide) (by decide) h0 hk

theorem p7_span_right {w : List Char} {k : Nat} (h0 : 0 < k)
    (hk : k < p7.length) :
    ¬ (p7.drop k <+: ('#' :: '#' :: w)) := by
  rw [p7_eq_cons] at hk ⊢
  exact span_right (by decide) (by decide) h0 hk

/-- Two markers are prefixes of the same string only for the same page. -/
theorem digits_prefix_eq : ∀ (a b : List Char),
    (∀ c ∈ a, c.isDigit = true) → (∀ c ∈ b, c.isDigit = true) → ∀ z : List Char,
    (a ++ ['\n']) <+: (b ++ '\n' :: z) → a = b := by
  intro a
  induction a with
  | nil =>
    intro b ha hb z h
    cases b with
    | nil => rfl
    | cons d bs =>
      exfalso
      rw [List.nil_append, List.cons_append] at h
      obtain ⟨hd, -⟩ := List.cons_prefix_cons.mp h
      exact isDigit_ne_newline (hb d (List.mem_cons_self d bs)) hd.symm
  | cons c as ih =>
    intro b ha hb z h
    cases b with
    | nil =>
      exfalso
      rw [List.cons_append, List.nil_append] at h
      obtain ⟨hd, -⟩ := List.cons_prefix_cons.mp h
      exact isDigit_ne_newline (ha c (List.mem_cons_self c as)) hd
    | cons d bs =>
      rw [List.cons_append, List.cons_append] at h
      obtain ⟨hd, h⟩ := List.cons_prefix_cons.mp h
      rw [hd, ih bs (fun e he => ha e (List.mem_cons_of_mem c he))
        (fun e he => hb e (List.mem_cons_of_mem d he)) z h]

theorem marker_prefix_inj {q p : Nat} {z : List Char}
    (h : marker q <+: marker p ++ z) : q = p := by
  have h2 : (natToDigits q ++ ['\n']) <+: (natToDigits p ++ '\n' :: z) := by
    have hq : marker q = S "## Page " ++ (natToDigits q ++ ['\n']) := by
      simp [marker, S]
    have hp : marker p ++ z = S "## Page " ++ (natToDigits p ++ '\n' :: z) := by
      simp [marker, S]
    rw [hq, hp] at h
    exact (List.prefix_append_right_inj (S "## Page ")).mp h
  exact natToDigits_inj (digits_prefix_eq _ _ (natToDigits_digits q) (natToDigits_digits p) z h2)

/-! ### First occurrences in concatenations -/

theorem firstOcc_append_left {pat x y : List Char} {i : Nat}
    (h : firstOcc pat x = some i) : firstOcc pat (x ++ y) = some i := by
  have hp := firstOcc_isPrefix h
  have hle := firstOcc_some_le h
  have hlen : pat.length ≤ x.length - i := by
    simpa [List.length_drop] using hp.length_le
  apply firstOcc_eq_some
  · rw [List.drop_append_of_le_length hle]
    exact prefix_extend y hp
  · intro t ht hcon
    rw [List.drop_append_of_le_length (by omega)] at hcon
    exact firstOcc_min h t ht
      (prefix_of_append_of_le hcon (by rw [List.length_drop]; omega))

theorem firstOcc_append_shift {pat x y : List Char}
    (h : ∀ t, t < x.length → ¬ pat <+: (x.drop t ++ y)) :
    firstOcc pat (x ++ y) = (firstOcc pat y).map (x.length + ·) := by
  induction x with
  | nil =>
    cases hfo : firstOcc pat y <;> simp [hfo]
  | cons c t ih =>
    have h0 : ¬ pat <+: (c :: (t ++ y)) := by simpa using h 0 (by simp)
    rw [List.cons_append, firstOcc_cons_neg h0,
      ih (fun u hu => by simpa using h (u + 1) (by simp; omega))]
    cases hfo : firstOcc pat y <;> simp [hfo]
    omega

theorem firstOcc_none_append {pat x y : List Char} (hx : firstOcc pat x = none)
    (hspan : ∀ k, 0 < k → k < pat.length → ¬ pat.drop k <+: y) :
    firstOcc pat (x ++ y) = (firstOcc pat y).map (x.length + ·) := by
  apply firstOcc_append_shift
  intro t ht hcon
  by_cases hl : pat.length ≤ (x.drop t).length
  · exact firstOcc_none hx t (prefix_of_append_of_le hcon hl)
  · have h2 := prefix_split_of_append hcon (by omega)
    have hk : 0 < (x.drop t).length := by rw [List.length_drop]; omega
    exact hspan _ hk (by omega) h2

theorem not_hasSub_forall {pat s : List Char} (h : ¬ hasSub pat s) :
    ∀ t, ¬ pat <+: s.drop t := by
  unfold hasSub at h
  cases hfo : firstOcc pat s with
  | none => exact firstOcc_none hfo
  | some i => rw [hfo] at h; simp at h

/-! ### Trimming -/

theorem trimStart_cons_of_not_ws {c : Char} (h : isJsWs c = false) (t : List Char) :
    trimStart (c :: t) = c :: t := by
  simp [trimStart, List.dropWhile_cons, h]

theorem trimEnd_eq_nil_iff {s : List Char} :
    trimEnd s = [] ↔ ∀ c ∈ s, isJsWs c = true := by
  simp [trimEnd, List.dropWhile_eq_nil_iff, List.mem_reverse]

theorem trimEnd_append_all_ws {x y : List Char} (h : ∀ c ∈ y, isJsWs c = true) :
    trimEnd (x ++ y) = trimEnd x := by
  rw [trimEnd, List.reverse_append, List.dropWhile_append,
    if_pos (by
      rw [List.isEmpty_iff, List.dropWhile_eq_nil_iff]
      intro c hc
      exact h c (List.mem_reverse.mp hc))]
  rfl

theorem trimEnd_append_of_ne {x y : List Char} (h : trimEnd y ≠ []) :
    trimEnd (x ++ y) = x ++ trimEnd y := by
  have h2 : ¬ (y.reverse.dropWhile isJsWs).isEmpty = true := by
    intro hcon
    rw [List.isEmpty_iff] at hcon
    exact h (by simp [trimEnd, hcon])
  rw [trimEnd, List.reverse_append, List.dropWhile_append, if_neg h2,
    List.reverse_append, List.reverse_reverse]
  rfl

theorem trimEnd_all_not_ws {y : List Char} (h : ∀ c ∈ y, isJsWs c = false) :
    trimEnd y = y := by
  cases hy : y.reverse with
  | nil =>
    have : y = [] := by simpa using congrArg List.reverse hy
    simp [trimEnd, this]
  | cons c t =>
    have hc : isJsWs c = false :=
      h c (List.mem_reverse.mp (hy ▸ List.mem_cons_self c t))
    rw [trimEnd, hy, List.dropWhile_cons, hc, if_neg (by simp), ← hy,
      List.reverse_reverse]

theorem trimEnd_split (s : List Char) :
    ∃ w, s = trimEnd s ++ w ∧ ∀ c ∈ w, isJsWs c = true := by
  refine ⟨(s.reverse.takeWhile isJsWs).reverse, ?_, ?_⟩
  · have h2 : s.reverse.reverse =
        (s.reverse.takeWhile isJsWs ++ s.reverse.dropWhile isJsWs).reverse := by
      rw [List.takeWhile_append_dropWhile]
    rw [List.reverse_reverse] at h2
    conv_lhs => rw [h2]
    rw [List.reverse_append]
    rfl
  · intro c hc
    exact List.mem_takeWhile_imp (List.mem_reverse.mp hc)

theorem trimStart_split (s : List Char) :
    ∃ w, s = w ++ trimStart s ∧ ∀ c ∈ w, isJsWs c = true := by
  refine ⟨s.takeWhile isJsWs, ?_, fun c hc => List.mem_takeWhile_imp hc⟩
  rw [trimStart, List.takeWhile_append_dropWhile]

theorem digits_not_ws (p : Nat) : ∀ c ∈ natToDigits p, isJsWs c = false :=
  fun c hc => isDigit_not_ws (natToDigits_digits p c hc)

/-- With a body that is not pure whitespace, the replacement string
`("## Page p\n" + notes + "\n\n").trim()` is the marker followed by the
right-trimmed body. -/
theorem trim_newPage (p : Nat) {b : List Char} (hb : trimEnd b ≠ []) :
    trimJs (newPageContent p b) = marker p ++ trimEnd b := by
  have h1 : trimStart (newPageContent p b) = newPageContent p b := by
    rw [show newPageContent p b =
        '#' :: ('#' :: markerTail p ++ b ++ ['\n', '\n']) from rfl]
    exact trimStart_cons_of_not_ws (by decide) _
  rw [trimJs, h1, newPageContent,
    trimEnd_append_all_ws (by decide : ∀ c ∈ ['\n', '\n'], isJsWs c = true),
    trimEnd_append_of_ne hb]

/-- With a pure-whitespace body the trim also eats the marker's newline:
the replacement is the bare header `"## Page p"`. -/
theorem trim_newPage_blank (p : Nat) {b : List Char} (hb : trimEnd b = []) :
    trimJs (newPageContent p b) = S "## Page " ++ natToDigits p := by
  have h1 : trimStart (newPageContent p b) = newPageContent p b := by
    rw [show newPageContent p b =
        '#' :: ('#' :: markerTail p ++ b ++ ['\n', '\n']) from rfl]
    exact trimStart_cons_of_not_ws (by decide) _
  rw [trimJs, h1, newPageContent, List.append_assoc,
    trimEnd_append_all_ws (by
      intro c hc
      rcases List.mem_append.mp hc with hc | hc
      · exact trimEnd_eq_nil_iff.mp hb c hc
      · have : c = '\n' := by simpa using hc
        subst this
        decide)]
  rw [show marker p = (S "## Page " ++ natToDigits p) ++ ['\n'] by
      simp [marker]]
  rw [trimEnd_append_all_ws (by decide : ∀ c ∈ ['\n'], isJsWs c = true),
    trimEnd_append_of_ne (by
      rw [trimEnd_all_not_ws (digits_not_ws p)]
      exact natToDigits_ne_nil p),
    trimEnd_all_not_ws (digits_not_ws p)]

/-! ### Dollar substitution -/

theorem subst_id {r : List Char} (h : '$' ∉ r) (m pre suf : List Char) :
    subst m pre suf r = r := by
  induction r with
  | nil => rfl
  | cons c t ih =>
    have hc : ¬ c = '$' := fun hcc => h (hcc ▸ List.mem_cons_self c t)
    have ht : '$' ∉ t := fun htt => h (List.mem_cons_of_mem c htt)
    unfold subst
    rw [if_neg hc, ih ht]

/-! ### Branch equations of the embedded operations -/

theorem saveNotesUpsert_absent {d : List Char} {p : Nat}
    (h : firstOcc (marker p) d = none) (b : List Char) :
    saveNotesUpsert d p b = d ++ newPageContent p b := by
  simp only [saveNotesUpsert, h]

theorem loadNotesExtract_absent {d : List Char} {p : Nat}
    (h : firstOcc (marker p) d = none) : loadNotesExtract d p = none := by
  simp only [loadNotesExtract, h]

theorem saveNotesUpsert_present {d : List Char} {p i : Nat} (b : List Char)
    (hfo : firstOcc (marker p) d = some i) :
    saveNotesUpsert d p b =
      d.take i ++
        subst
          (marker p ++ (d.drop (i + (marker p).length)).take
            ((firstOcc p7 (d.drop (i + (marker p).length))).getD
              (d.drop (i + (marker p).length)).length))
          (d.take i)
          ((d.drop (i + (marker p).length)).drop
            ((firstOcc p7 (d.drop (i + (marker p).length))).getD
              (d.drop (i + (marker p).length)).length))
          (trimJs (newPageContent p b)) ++
        (d.drop (i + (marker p).length)).drop
          ((firstOcc p7 (d.drop (i + (marker p).length))).getD
            (d.drop (i + (marker p).length)).length) := by
  simp only [saveNotesUpsert, hfo]

theorem loadNotesExtract_present {d : List Char} {p i : Nat}
    (hfo : firstOcc (marker p) d = some i) :
    loadNotesExtract d p =
      some (trimJs ((d.drop (i + (marker p).length)).take
        ((firstOcc p7 (d.drop (i + (marker p).length))).getD
          (d.drop (i + (marker p).length)).length))) := by
  simp only [loadNotesExtract, hfo]

/-! ### Occurrence bookkeeping for the replace branch -/

theorem firstOcc_decomp {pat d : List Char} {i : Nat}
    (h : firstOcc pat d = some i) :
    d = d.take i ++ (pat ++ d.drop (i + pat.length)) := by
  obtain ⟨t, ht⟩ := firstOcc_isPrefix h
  have h2 : d.drop (i + pat.length) = t := by
    rw [← List.drop_drop, ← ht, List.drop_left]
  rw [h2, ht, List.take_append_drop]

theorem no_occ_no_firstOcc {pat s : List Char}
    (h : ∀ t, ¬ pat <+: s.drop t) : firstOcc pat s = none := by
  cases hfo : firstOcc pat s with
  | none => rfl
  | some k => exact absurd (firstOcc_isPrefix hfo) (h k)

/-- An occurrence of `marker p` that starts inside `x` when `x` is followed
by a `"##"`-headed string lies entirely within `x`. -/
theorem marker_occ_append_sharp {p : Nat} {x y : List Char} {t : Nat}
    (ht : t < x.length)
    (h : marker p <+: x.drop t ++ ('#' :: '#' :: y)) : marker p <+: x.drop t := by
  by_cases hl : (marker p).length ≤ (x.drop t).length
  · exact prefix_of_append_of_le h hl
  · exfalso
    have h2 := prefix_split_of_append h (by omega)
    have hk : 0 < (x.drop t).length := by rw [List.length_drop]; omega
    exact marker_span_right p hk (by omega) h2

theorem dollar_not_mem_marker (p : Nat) : '$' ∉ marker p := by
  intro h
  simp only [marker, S, List.mem_append, List.mem_singleton] at h
  rcases h with (h | h) | h
  · revert h; decide
  · have hd := isDigit_toNat (natToDigits_digits p _ h)
    have h36 : ('$').toNat = 36 := by decide
    omega
  · exact absurd h (by decide)

theorem trimEnd_mem_subset {b : List Char} {c : Char} (h : c ∈ trimEnd b) :
    c ∈ b := by
  obtain ⟨w, hw, -⟩ := trimEnd_split b
  rw [hw]
  exact List.mem_append.mpr (Or.inl h)

theorem firstOcc_trimEnd_none {b : List Char} (hb : ¬ hasSub p7 b) :
    firstOcc p7 (trimEnd b) = none := by
  apply no_occ_no_firstOcc
  intro k hcon
  by_cases hk : k ≤ (trimEnd b).length
  · obtain ⟨w, hw, -⟩ := trimEnd_split b
    have h3 : (trimEnd b ++ w).drop k = (trimEnd b).drop k ++ w :=
      List.drop_append_of_le_length hk
    rw [← hw] at h3
    exact not_hasSub_forall hb k (h3 ▸ prefix_extend w hcon)
  · rw [List.drop_eq_nil_of_le (by omega)] at hcon
    have : p7 = [] := List.prefix_nil.mp hcon
    exact absurd this (by decide)

/-- The shape of the text after the matched group: either the match ran to
the end of the string, or the remainder starts with `"## Page"`. -/
theorem suf_shape (rest0 : List Char) :
    rest0.drop ((firstOcc p7 rest0).getD rest0.length) = [] ∨
    p7 <+: rest0.drop ((firstOcc p7 rest0).getD rest0.length) := by
  cases hfo : firstOcc p7 rest0 with
  | none => left; simp [List.drop_length]
  | some j => right; simpa using firstOcc_isPrefix hfo

/-- Locating the group boundary in the rewritten section `trimEnd b ++ suf`:
the body holds no `"## Page"`, so the boundary is exactly at the end of the
body. -/
theorem firstOcc_p7_group {b suf : List Char}
    (hnone : firstOcc p7 (trimEnd b) = none)
    (hshape : suf = [] ∨ p7 <+: suf) :
    (firstOcc p7 (trimEnd b ++ suf)).getD (trimEnd b ++ suf).length =
      (trimEnd b).length := by
  rcases hshape with rfl | hs
  · rw [List.append_nil, hnone, Option.getD_none]
  · obtain ⟨s2, hs2⟩ := hs
    rw [firstOcc_none_append hnone ?hspan]
    · rw [firstOcc_zero ⟨s2, hs2⟩]
      simp
    case hspan =>
      intro k h0 hk hcon
      rw [← hs2] at hcon
      have : p7 ++ s2 = '#' :: '#' :: ([' ', 'P', 'a', 'g', 'e'] ++ s2) := rfl
      rw [this] at hcon
      exact p7_span_right h0 hk hcon

/-! ### Idempotence of the replace branch -/

/-- When the document already holds a marker for `p` and the body is
non-blank, free of `"## Page"` and of `'$'`, a second identical upsert
leaves the document unchanged. -/
theorem upsert_idem_present {d b : List Char} {p : Nat}
    (hfo : (firstOcc (marker p) d).isSome)
    (hb7 : ¬ hasSub p7 b) (hbd : '$' ∉ b) (hbe : trimEnd b ≠ []) :
    saveNotesUpsert (saveNotesUpsert d p b) p b = saveNotesUpsert d p b := by
  obtain ⟨i, hfo⟩ := Option.isSome_iff_exists.mp hfo
  have hi : i ≤ d.length := firstOcc_some_le hfo
  have hR : trimJs (newPageContent p b) = marker p ++ trimEnd b := trim_newPage p hbe
  have hRd : '$' ∉ marker p ++ trimEnd b := by
    intro hmem
    rcases List.mem_append.mp hmem with hmem | hmem
    · exact dollar_not_mem_marker p hmem
    · exact hbd (trimEnd_mem_subset hmem)
  have hpre_len : (d.take i).length = i := by
    rw [List.length_take]; omega
  have hshape := suf_shape (d.drop (i + (marker p).length))
  have hfd : saveNotesUpsert d p b =
      d.take i ++ ((marker p) ++ (trimEnd b ++
        (d.drop (i + (marker p).length)).drop
          ((firstOcc p7 (d.drop (i + (marker p).length))).getD
            (d.drop (i + (marker p).length)).length))) := by
    rw [saveNotesUpsert_present b hfo, hR, subst_id hRd]
    simp [List.append_assoc]
  have hno : ∀ t, t < i → ¬ marker p <+: (d.take i).drop t := by
    intro t ht hcon
    apply firstOcc_min hfo t ht
    have h1 : d.drop t = (d.take i).drop t ++ d.drop i := by
      conv_lhs => rw [← List.take_append_drop i d]
      rw [List.drop_append_of_le_length (by rw [List.length_take]; omega)]
    rw [h1]
    exact prefix_extend _ hcon
  have hfo2 : firstOcc (marker p) (saveNotesUpsert d p b) = some i := by
    rw [hfd, firstOcc_append_shift ?hsp]
    · rw [firstOcc_zero (List.prefix_append _ _)]
      simp [hpre_len]
    case hsp =>
      intro t ht hcon
      rw [hpre_len] at ht
      exact hno t ht (marker_occ_append_sharp (by rw [hpre_len]; exact ht) hcon)
  rw [saveNotesUpsert_present b hfo2]
  rw [hfd]
  have htk : (d.take i ++ ((marker p) ++ (trimEnd b ++
      (d.drop (i + (marker p).length)).drop
        ((firstOcc p7 (d.drop (i + (marker p).length))).getD
          (d.drop (i + (marker p).length)).length)))).take i = d.take i :=
    List.take_left' hpre_len
  have hdr : (d.take i ++ ((marker p) ++ (trimEnd b ++
      (d.drop (i + (marker p).length)).drop
        ((firstOcc p7 (d.drop (i + (marker p).length))).getD
          (d.drop (i + (marker p).length)).length)))).drop (i + (marker p).length) =
      trimEnd b ++ (d.drop (i + (marker p).length)).drop
        ((firstOcc p7 (d.drop (i + (marker p).length))).getD
          (d.drop (i + (marker p).length)).length) := by
    rw [show d.take i ++ ((marker p) ++ (trimEnd b ++
        (d.drop (i + (marker p).length)).drop
          ((firstOcc p7 (d.drop (i + (marker p).length))).getD
            (d.drop (i + (marker p).length)).length))) =
        (d.take i ++ marker p) ++ (trimEnd b ++
        (d.drop (i + (marker p).length)).drop
          ((firstOcc p7 (d.drop (i + (marker p).length))).getD
            (d.drop (i + (marker p).length)).length)) by
      simp [List.append_assoc]]
    exact List.drop_left' (by simp [hpre_len])
  rw [htk, hdr]
  rw [firstOcc_p7_group (firstOcc_trimEnd_none hb7) hshape]
  rw [List.take_left, List.drop_left]
  rw [hR, subst_id hRd]
  simp [List.append_assoc]

/-! ### Helpers for the frame property (section isolation) -/

theorem firstOcc_drop_eq {pat d : List Char} {i : Nat}
    (h : firstOcc pat d = some i) :
    d.drop i = pat ++ d.drop (i + pat.length) := by
  obtain ⟨t, ht⟩ := firstOcc_isPrefix h
  have h2 : d.drop (i + pat.length) = t := by
    rw [← List.drop_drop, ← ht, List.drop_left]
  rw [h2]
  exact ht.symm

/-- The right-hand tail of the header `"## Page p"` (the replacement string
in the blank-body case), after its two `'#'`. -/
def headerTail (p : Nat) : List Char :=
  ' ' :: 'P' :: 'a' :: 'g' :: 'e' :: ' ' :: natToDigits p

theorem header_eq_cons (p : Nat) :
    S "## Page " ++ natToDigits p = '#' :: '#' :: headerTail p := rfl

theorem sharp_not_mem_headerTail (p : Nat) : '#' ∉ headerTail p := by
  intro h
  simp only [headerTail, List.mem_cons] at h
  rcases h with h | h | h | h | h | h | h
  all_goals first
  | exact absurd h (by decide)
  | exact absurd rfl (isDigit_ne_sharp (natToDigits_digits p _ h))

theorem headerTail_ne_nil (p : Nat) : headerTail p ≠ [] := by
  simp [headerTail]

theorem header_span_left {w z : List Char} (p : Nat) {k : Nat} (h0 : 0 < k)
    (hk : k < (S "## Page " ++ natToDigits p).length) :
    ¬ (('#' :: '#' :: w) <+: ((S "## Page " ++ natToDigits p).drop k ++ z)) := by
  rw [header_eq_cons] at hk ⊢
  exact span_left (sharp_not_mem_headerTail p) (headerTail_ne_nil p) h0 hk

theorem p7_prefix_header (p : Nat) : p7 <+: S "## Page " ++ natToDigits p :=
  ⟨' ' :: natToDigits p, rfl⟩

/-- Compare the digit-and-newline tails of two markers when the second is
followed by the end of the document or by a `'#'`. -/
theorem digits_nl_determines : ∀ (a b : List Char),
    (∀ c ∈ a, c.isDigit = true) → (∀ c ∈ b, c.isDigit = true) →
    ∀ z : List Char, (z = [] ∨ ∃ w, z = '#' :: w) →
    (a ++ ['\n']) <+: (b ++ z) → a = b := by
  intro a
  induction a with
  | nil =>
    intro b ha hb z hz h
    cases b with
    | nil =>
      rfl
    | cons d bs =>
      exfalso
      rw [List.nil_append, List.cons_append] at h
      obtain ⟨hd, -⟩ := List.cons_prefix_cons.mp h
      exact isDigit_ne_newline (hb d (List.mem_cons_self d bs)) hd.symm
  | cons c as ih =>
    intro b ha hb z hz h
    cases b with
    | nil =>
      exfalso
      rw [List.cons_append, List.nil_append] at h
      rcases hz with rfl | ⟨w, rfl⟩
      · have := h.length_le
        simp at this
      · obtain ⟨hd, -⟩ := List.cons_prefix_cons.mp h
        exact absurd hd (isDigit_ne_sharp (ha c (List.mem_cons_self c as)))
    | cons d bs =>
      rw [List.cons_append, List.cons_append] at h
      obtain ⟨hd, h⟩ := List.cons_prefix_cons.mp h
      rw [hd, ih bs (fun e he => ha e (List.mem_cons_of_mem c he))
        (fun e he => hb e (List.mem_cons_of_mem d he)) z hz h]

theorem header_prefix_inj {q p : Nat} {z : List Char}
    (hz : z = [] ∨ ∃ w, z = '#' :: w)
    (h : marker q <+: (S "## Page " ++ natToDigits p) ++ z) : q = p := by
  have h2 : (natToDigits q ++ ['\n']) <+: (natToDigits p ++ z) := by
    have hq : marker q = S "## Page " ++ (natToDigits q ++ ['\n']) := by
      simp [marker, S]
    have hp : (S "## Page " ++ natToDigits p) ++ z =
        S "## Page " ++ (natToDigits p ++ z) := by
      simp [List.append_assoc]
    rw [hq, hp] at h
    exact (List.prefix_append_right_inj (S "## Page ")).mp h
  exact natToDigits_inj (digits_nl_determines _ _ (natToDigits_digits q)
    (natToDigits_digits p) z hz h2)

theorem trimStart_mem_subset {b : List Char} {c : Char} (h : c ∈ trimStart b) :
    c ∈ b := by
  obtain ⟨w, hw, -⟩ := trimStart_split b
  rw [hw]
  exact List.mem_append.mpr (Or.inr h)

theorem dollar_not_mem_trimNewPage {b : List Char} (p : Nat) (hbd : '$' ∉ b) :
    '$' ∉ trimJs (newPageContent p b) := by
  intro h
  have h2 : '$' ∈ newPageContent p b :=
    trimStart_mem_subset (trimEnd_mem_subset h)
  simp only [newPageContent, List.mem_append, List.mem_cons] at h2
  rcases h2 with (h2 | h2) | h2
  · exact dollar_not_mem_marker p h2
  · exact hbd h2
  · rcases h2 with h2 | h2 | h2 <;> simp_all

/-- Whatever the body, the replacement string starts with `"## Page"`. -/
theorem p7_prefix_trimNewPage (p : Nat) (b : List Char) :
    p7 <+: trimJs (newPageContent p b) := by
  by_cases hbe : trimEnd b = []
  · rw [trim_newPage_blank p hbe]
    exact p7_prefix_header p
  · rw [trim_newPage p hbe]
    exact (p7_prefix_marker p).trans (List.prefix_append _ _)

/-- The matched group stays the same when the text after the group boundary
changes but keeps starting with `"## Page"` (or the group ran to the end and
a `"## Page"`-headed tail is appended). -/
theorem group_extend_sharp {B N : List Char} (hN : p7 <+: N) :
    (B ++ N).take ((firstOcc p7 (B ++ N)).getD (B ++ N).length) =
      B.take ((firstOcc p7 B).getD B.length) := by
  cases hfo : firstOcc p7 B with
  | some u =>
    rw [firstOcc_append_left hfo, Option.getD_some, Option.getD_some,
      List.take_append_of_le_length (firstOcc_some_le hfo)]
  | none =>
    have h2 : firstOcc p7 (B ++ N) = some B.length := by
      rw [firstOcc_none_append hfo ?hspan]
      · rw [firstOcc_zero hN]
        simp
      case hspan =>
        intro k h0 hk hcon
        obtain ⟨w, hw⟩ := hN
        rw [← hw] at hcon
        exact p7_span_right h0 hk hcon
    rw [h2, Option.getD_some, Option.getD_none, List.take_left, List.take_length]

theorem group_eq_of_sharp_tails {B X Y : List Char}
    (hX : p7 <+: X) (hY : p7 <+: Y) :
    (B ++ X).take ((firstOcc p7 (B ++ X)).getD (B ++ X).length) =
      (B ++ Y).take ((firstOcc p7 (B ++ Y)).getD (B ++ Y).length) := by
  rw [group_extend_sharp hX, group_extend_sharp hY]

/-- Section isolation, append branch: adding a fresh section at the end does
not change the extraction of a page already present. -/
theorem upsert_other_absent {d b : List Char} {p q : Nat}
    (hfp : firstOcc (marker p) d = none)
    (hq : (firstOcc (marker q) d).isSome) :
    loadNotesExtract (saveNotesUpsert d p b) q = loadNotesExtract d q := by
  obtain ⟨t, hqfo⟩ := Option.isSome_iff_exists.mp hq
  rw [saveNotesUpsert_absent hfp b]
  have hfo2 : firstOcc (marker q) (d ++ newPageContent p b) = some t :=
    firstOcc_append_left hqfo
  rw [loadNotesExtract_present hfo2, loadNotesExtract_present hqfo]
  have hfit : t + (marker q).length ≤ d.length := by
    have h1 := (firstOcc_isPrefix hqfo).length_le
    have h2 := firstOcc_some_le hqfo
    rw [List.length_drop] at h1
    omega
  rw [List.drop_append_of_le_length hfit,
    group_extend_sharp (show p7 <+: newPageContent p b from
      prefix_extend _ (prefix_extend _ (p7_prefix_marker p)))]

/-- No `"## Page"`-headed pattern occurs strictly inside the replacement
string (followed by the preserved tail `suf`). -/
theorem no_marker_inside_repl {p : Nat} {b suf pat : List Char}
    (hpat : p7 <+: pat) (hb7 : ¬ hasSub p7 b)
    (hsuf : suf = [] ∨ p7 <+: suf) {k : Nat} (h0 : 0 < k)
    (hk : k < (trimJs (newPageContent p b)).length) :
    ¬ pat <+: (trimJs (newPageContent p b)).drop k ++ suf := by
  intro hcon
  have hp7 : p7 <+: (trimJs (newPageContent p b)).drop k ++ suf :=
    hpat.trans hcon
  by_cases hbe : trimEnd b = []
  · rw [trim_newPage_blank p hbe] at hp7 hk
    exact header_span_left p h0 hk hp7
  · rw [trim_newPage p hbe] at hp7 hk
    by_cases hkL : k < (marker p).length
    · have hsh : (marker p ++ trimEnd b).drop k ++ suf =
          (marker p).drop k ++ (trimEnd b ++ suf) := by
        rw [List.drop_append_of_le_length (by omega), List.append_assoc]
      rw [hsh] at hp7
      exact marker_span_left p h0 hkL hp7
    · push_neg at hkL
      obtain ⟨u, rfl⟩ : ∃ u, k = (marker p).length + u :=
        ⟨k - (marker p).length, by omega⟩
      rw [List.drop_append] at hp7
      have hulen : u < (trimEnd b).length := by
        rw [List.length_append] at hk; omega
      by_cases hl : p7.length ≤ ((trimEnd b).drop u).length
      · have h2 := prefix_of_append_of_le hp7 hl
        obtain ⟨w, hw, -⟩ := trimEnd_split b
        have h3 : (trimEnd b ++ w).drop u = (trimEnd b).drop u ++ w :=
          List.drop_append_of_le_length (by omega)
        rw [← hw] at h3
        exact not_hasSub_forall hb7 _ (h3 ▸ prefix_extend w h2)
      · push_neg at hl
        have h2 := prefix_split_of_append hp7 hl
        rcases hsuf with rfl | hs
        · have h3 := List.prefix_nil.mp h2
          have hlen := congrArg List.length h3
          rw [List.length_drop, List.length_nil] at hlen
          omega
        · obtain ⟨w, hw⟩ := hs
          rw [← hw] at h2
          have hk0 : 0 < ((trimEnd b).drop u).length := by
            rw [List.length_drop]; omega
          exact p7_span_right hk0 hl h2

/-- Position of an occurrence of another page's marker relative to the
replaced window: strictly before the window, or at/after its end. -/
theorem occ_position {d : List Char} {p q : Nat} {i t : Nat} (hpq : p ≠ q)
    (hfp : firstOcc (marker p) d = some i)
    (hocc : marker q <+: d.drop t) :
    t < i ∨
      i + (marker p).length +
        ((firstOcc p7 (d.drop (i + (marker p).length))).getD
          (d.drop (i + (marker p).length)).length) ≤ t := by
  by_contra hcon
  push_neg at hcon
  obtain ⟨h1, h2⟩ := hcon
  rcases Nat.lt_or_ge t (i + (marker p).length) with hlt | hge
  · rcases Nat.eq_or_lt_of_le h1 with rfl | hgt
    · rw [firstOcc_drop_eq hfp] at hocc
      exact hpq (marker_prefix_inj hocc).symm
    · have hdt : d.drop t =
          (marker p).drop (t - i) ++ d.drop (i + (marker p).length) := by
        have hdd : d.drop t = (d.drop i).drop (t - i) := by
          rw [List.drop_drop]
          congr 1
          omega
        rw [hdd, firstOcc_drop_eq hfp,
          List.drop_append_of_le_length (by omega)]
      rw [hdt] at hocc
      exact marker_span_left p (by omega) (by omega) hocc
  · have hdt : d.drop t =
        (d.drop (i + (marker p).length)).drop (t - (i + (marker p).length)) := by
      rw [List.drop_drop]
      congr 1
      omega
    rw [hdt] at hocc
    have hp7 : p7 <+:
        (d.drop (i + (marker p).length)).drop (t - (i + (marker p).length)) :=
      (p7_prefix_marker q).trans hocc
    cases hjo : firstOcc p7 (d.drop (i + (marker p).length)) with
    | none => exact firstOcc_none hjo _ hp7
    | some j =>
      rw [hjo] at h2
      rw [Option.getD_some] at h2
      exact firstOcc_min hjo _ (by omega) hp7

/-- Section isolation, replace branch. -/
theorem upsert_other_present {d b : List Char} {p q : Nat} {i : Nat}
    (hpq : p ≠ q)
    (hfp : firstOcc (marker p) d = some i)
    (hq : (firstOcc (marker q) d).isSome)
    (hb7 : ¬ hasSub p7 b) (hbd : '$' ∉ b) :
    loadNotesExtract (saveNotesUpsert d p b) q = loadNotesExtract d q := by
  obtain ⟨t, hqfo⟩ := Option.isSome_iff_exists.mp hq
  have hi : i ≤ d.length := firstOcc_some_le hfp
  have hL8 : 8 ≤ (marker p).length := marker_length p
  have hpre_len : (d.take i).length = i := by rw [List.length_take]; omega
  have hRd : '$' ∉ trimJs (newPageContent p b) := dollar_not_mem_trimNewPage p hbd
  have hshape := suf_shape (d.drop (i + (marker p).length))
  have hfd : saveNotesUpsert d p b =
      d.take i ++ (trimJs (newPageContent p b) ++
        (d.drop (i + (marker p).length)).drop
          ((firstOcc p7 (d.drop (i + (marker p).length))).getD
            (d.drop (i + (marker p).length)).length)) := by
    rw [saveNotesUpsert_present b hfp, subst_id hRd]
    simp [List.append_assoc]
  have hddec := firstOcc_decomp hfp
  have hdv : ∀ v, v ≤ i →
      d.drop v = (d.take i).drop v ++
        (marker p ++ d.drop (i + (marker p).length)) := by
    intro v hv
    conv_lhs => rw [hddec]
    rw [List.drop_append_of_le_length (by omega)]
  have htri := occ_position hpq hfp (firstOcc_isPrefix hqfo)
  obtain ⟨Rw, hRw⟩ := p7_prefix_trimNewPage p b
  set L := (marker p).length with hLdef
  set A := d.take i with hA
  set R := trimJs (newPageContent p b) with hR
  set rest0 := d.drop (i + L) with hrest0
  set jv := (firstOcc p7 rest0).getD rest0.length with hjv
  set suf := rest0.drop jv with hsufdef
  have hRcons : R ++ suf = '#' :: '#' :: (([' ', 'P', 'a', 'g', 'e'] ++ Rw) ++ suf) := by
    rw [← hRw]
    rfl
  rcases htri with hlt | hge
  · -- occurrence strictly before the window
    have hqA : marker q <+: A.drop t := by
      have h2 := firstOcc_isPrefix hqfo
      rw [hdv t (by omega)] at h2
      exact marker_occ_append_sharp (by omega) h2
    have hfit : t + (marker q).length ≤ i := by
      have h3 := hqA.length_le
      rw [List.length_drop, hpre_len] at h3
      have h4 := marker_length q
      omega
    have hfo2 : firstOcc (marker q) (saveNotesUpsert d p b) = some t := by
      rw [hfd]
      apply firstOcc_eq_some
      · rw [List.drop_append_of_le_length (by omega)]
        exact prefix_extend _ hqA
      · intro v hv hcon2
        rw [List.drop_append_of_le_length (by omega)] at hcon2
        rw [hRcons] at hcon2
        have hvA : marker q <+: A.drop v :=
          marker_occ_append_sharp (by omega) hcon2
        apply firstOcc_min hqfo v (by omega)
        rw [hdv v (by omega)]
        exact prefix_extend _ hvA
    rw [loadNotesExtract_present hfo2, loadNotesExtract_present hqfo]
    have h1 : (saveNotesUpsert d p b).drop (t + (marker q).length) =
        A.drop (t + (marker q).length) ++ (R ++ suf) := by
      rw [hfd, List.drop_append_of_le_length (by omega)]
    have h2 : d.drop (t + (marker q).length) =
        A.drop (t + (marker q).length) ++ (marker p ++ rest0) :=
      hdv _ (by omega)
    rw [h1, h2, group_eq_of_sharp_tails
      (prefix_extend _ (by rw [← hRw]; exact List.prefix_append _ _))
      (prefix_extend _ (p7_prefix_marker p))]
  · -- occurrence at or after the window's end
    obtain ⟨u, rfl⟩ : ∃ u, t = i + L + jv + u := ⟨t - (i + L + jv), by omega⟩
    have hocc_suf : marker q <+: suf.drop u := by
      have h2 := firstOcc_isPrefix hqfo
      have h3 : d.drop (i + L + jv + u) = suf.drop u := by
        rw [hsufdef, hrest0, List.drop_drop, List.drop_drop]
        congr 1
        omega
      rw [h3] at h2
      exact h2
    have hzsuf : suf = [] ∨ ∃ w, suf = '#' :: w := by
      rcases hshape with h3 | h3
      · exact Or.inl h3
      · obtain ⟨w, hw⟩ := h3
        exact Or.inr ⟨'#' :: ([' ', 'P', 'a', 'g', 'e'] ++ w), by rw [← hw]; rfl⟩
    have hfo2 : firstOcc (marker q) (saveNotesUpsert d p b) =
        some (A.length + (R.length + u)) := by
      rw [hfd]
      apply firstOcc_eq_some
      · rw [List.drop_append, List.drop_append]
        exact hocc_suf
      · intro v hv hcon2
        by_cases hvA : v < A.length
        · rw [List.drop_append_of_le_length (by omega)] at hcon2
          rw [hRcons] at hcon2
          have hvA2 : marker q <+: A.drop v :=
            marker_occ_append_sharp (by omega) hcon2
          apply firstOcc_min hqfo v (by omega)
          rw [hdv v (by omega)]
          exact prefix_extend _ hvA2
        · push_neg at hvA
          by_cases hvR : v < A.length + R.length
          · obtain ⟨k, rfl⟩ : ∃ k, v = A.length + k := ⟨v - A.length, by omega⟩
            rw [List.drop_append] at hcon2
            rcases Nat.eq_zero_or_pos k with rfl | hk0
            · rw [List.drop_zero] at hcon2
              by_cases hbe : trimEnd b = []
              · rw [hR, trim_newPage_blank p hbe] at hcon2
                exact hpq (header_prefix_inj hzsuf hcon2).symm
              · rw [hR, trim_newPage p hbe, List.append_assoc] at hcon2
                exact hpq (marker_prefix_inj hcon2).symm
            · rw [List.drop_append_of_le_length (by omega)] at hcon2
              rw [hR] at hcon2
              exact no_marker_inside_repl (p7_prefix_marker q) hb7 hshape hk0
                (by rw [← hR]; omega) hcon2
          · push_neg at hvR
            obtain ⟨w2, rfl⟩ : ∃ w2, v = A.length + (R.length + w2) :=
              ⟨v - A.length - R.length, by omega⟩
            rw [List.drop_append, List.drop_append] at hcon2
            have hds : suf.drop w2 = d.drop (i + L + jv + w2) := by
              rw [hsufdef, hrest0, List.drop_drop, List.drop_drop]
              congr 1
              omega
            rw [hds] at hcon2
            exact firstOcc_min hqfo _ (by omega) hcon2
    rw [loadNotesExtract_present hfo2, loadNotesExtract_present hqfo]
    have hrest_eq : (saveNotesUpsert d p b).drop
        (A.length + (R.length + u) + (marker q).length) =
        d.drop (i + L + jv + u + (marker q).length) := by
      rw [hfd,
        show A.length + (R.length + u) + (marker q).length =
          A.length + (R.length + (u + (marker q).length)) by omega,
        List.drop_append, List.drop_append]
      rw [hsufdef, hrest0, List.drop_drop, List.drop_drop]
      congr 1
      omega
    rw [hrest_eq]

/-! ### Line structure of documents -/

theorem splitLines_ne_nil (s : List Char) : splitLines s ≠ [] := by
  cases s with
  | nil => simp [splitLines]
  | cons c t =>
    by_cases hc : c = '\n'
    · simp [splitLines, hc]
    · simp only [splitLines, hc, if_false]
      cases splitLines t <;> simp

theorem splitLines_cons_newline (t : List Char) :
    splitLines ('\n' :: t) = [] :: splitLines t := by
  simp [splitLines]

theorem splitLines_cons_other {c : Char} (hc : ¬ c = '\n') {t l : List Char}
    {ls : List (List Char)} (hsp : splitLines t = l :: ls) :
    splitLines (c :: t) = (c :: l) :: ls := by
  simp [splitLines, hc, hsp]

theorem splitLines_append (x y : List Char) :
    splitLines (x ++ '\n' :: y) = splitLines x ++ splitLines y := by
  induction x with
  | nil => simp [splitLines]
  | cons c x2 ih =>
    by_cases hc : c = '\n'
    · subst hc
      rw [List.cons_append, splitLines_cons_newline, splitLines_cons_newline, ih]
      rfl
    · rw [List.cons_append]
      cases hsp : splitLines x2 with
      | nil => exact absurd hsp (splitLines_ne_nil x2)
      | cons l ls =>
        rw [splitLines_cons_other hc (by rw [ih, hsp]; rfl),
          splitLines_cons_other hc hsp]
        rfl

theorem splitLines_no_newline {s : List Char} (h : ∀ c ∈ s, c ≠ '\n') :
    splitLines s = [s] := by
  induction s with
  | nil => rfl
  | cons c t ih =>
    have hc : ¬ c = '\n' := h c (List.mem_cons_self c t)
    rw [splitLines_cons_other hc
      (ih (fun e he => h e (List.mem_cons_of_mem c he)))]

theorem joinLines_cons (l : List Char) {ls : List (List Char)} (h : ls ≠ []) :
    joinLines (l :: ls) = l ++ '\n' :: joinLines ls := by
  cases ls with
  | nil => exact absurd rfl h
  | cons a as => rfl

theorem joinLines_splitLines (s : List Char) : joinLines (splitLines s) = s := by
  induction s with
  | nil => rfl
  | cons c t ih =>
    by_cases hc : c = '\n'
    · subst hc
      rw [splitLines_cons_newline, joinLines_cons _ (splitLines_ne_nil t), ih]
      rfl
    · cases hsp : splitLines t with
      | nil => exact absurd hsp (splitLines_ne_nil t)
      | cons l ls =>
        rw [hsp] at ih
        rw [splitLines_cons_other hc hsp]
        cases ls with
        | nil =>
          have : l = t := ih
          rw [show joinLines [c :: l] = c :: l from rfl, this]
        | cons l2 ls2 =>
          rw [joinLines_cons _ (by simp)] at ih ⊢
          rw [List.cons_append, ih]

theorem joinLines_append_nil_line {ls : List (List Char)} (h : ls ≠ []) :
    joinLines (ls ++ [[]]) = joinLines ls ++ ['\n'] := by
  induction ls with
  | nil => exact absurd rfl h
  | cons l ls ih =>
    cases ls with
    | nil => rfl
    | cons l2 ls2 =>
      rw [List.cons_append, joinLines_cons _ (by simp),
        joinLines_cons _ (by simp), ih (by simp)]
      simp

/-! ### More trimming lemmas (for parsed pieces) -/

theorem trimStart_cons_ws {c : Char} (h : isJsWs c = true) (x : List Char) :
    trimStart (c :: x) = trimStart x := by
  simp [trimStart, List.dropWhile_cons, h]

theorem trimJs_cons_ws {c : Char} (h : isJsWs c = true) (x : List Char) :
    trimJs (c :: x) = trimJs x := by
  rw [trimJs, trimJs, trimStart_cons_ws h]

theorem trimStart_append (x w : List Char) :
    trimStart (x ++ w) =
      if trimStart x = [] then trimStart w else trimStart x ++ w := by
  induction x with
  | nil => simp [trimStart]
  | cons c t ih =>
    by_cases hc : isJsWs c
    · rw [List.cons_append, trimStart_cons_ws hc, trimStart_cons_ws hc, ih]
    · have hc2 : isJsWs c = false := by simp [hc]
      rw [List.cons_append, trimStart_cons_of_not_ws hc2,
        trimStart_cons_of_not_ws hc2]
      simp

theorem trimJs_append_ws {x w : List Char} (h : ∀ c ∈ w, isJsWs c = true) :
    trimJs (x ++ w) = trimJs x := by
  rw [trimJs, trimJs, trimStart_append]
  by_cases hx : trimStart x = []
  · rw [if_pos hx, hx]
    rw [trimEnd_eq_nil_iff.mpr, trimEnd_eq_nil_iff.mpr]
    · simp
    · intro c hc
      exact h c (trimStart_mem_subset hc)
  · rw [if_neg hx, trimEnd_append_all_ws h]

/-! ### Marker lines and the parse loop -/

theorem markerLineNum_marker_line (p : Nat) :
    markerLineNum (S "## Page " ++ natToDigits p) = some p := by
  unfold markerLineNum
  rw [if_pos (List.isPrefixOf_iff_prefix.mpr (List.prefix_append _ _))]
  have hdrop : (S "## Page " ++ natToDigits p).drop 8 = natToDigits p :=
    List.drop_left' (by decide)
  rw [hdrop, if_pos ?cond, digitsVal_natToDigits]
  case cond =>
    rw [Bool.and_eq_true]
    refine ⟨?_, ?_⟩
    · cases hnd : natToDigits p with
      | nil => exact absurd hnd (natToDigits_ne_nil p)
      | cons a as => rfl
    · rw [List.all_eq_true]
      exact natToDigits_digits p

theorem markerLineNum_none_not_prefix {l : List Char}
    (h : ¬ S "## Page " <+: l) : markerLineNum l = none := by
  unfold markerLineNum
  rw [if_neg (fun hb => h (List.isPrefixOf_iff_prefix.mp hb))]

theorem markerLineNum_nil : markerLineNum [] = none := by decide

theorem parseGo_collect {bodyLs : List (List Char)}
    (hb : ∀ l ∈ bodyLs, markerLineNum l = none) (rest : List (List Char))
    (P : Nat) (acc : List (List Char)) :
    parseGo (bodyLs ++ rest) (some (P, acc)) =
      parseGo rest (some (P, bodyLs.reverse ++ acc)) := by
  induction bodyLs generalizing acc with
  | nil => simp
  | cons l ls ih =>
    rw [List.cons_append]
    simp only [parseGo, hb l (List.mem_cons_self l ls)]
    rw [ih (fun e he => hb e (List.mem_cons_of_mem l he))]
    simp

theorem parseGo_skip_none {ls1 : List (List Char)}
    (h : ∀ l ∈ ls1, markerLineNum l = none) (ls2 : List (List Char)) :
    parseGo (ls1 ++ ls2) none = parseGo ls2 none := by
  induction ls1 with
  | nil => simp
  | cons l ls ih =>
    rw [List.cons_append]
    simp only [parseGo, h l (List.mem_cons_self l ls)]
    exact ih (fun e he => h e (List.mem_cons_of_mem l he))

theorem parseGo_none_of_no_markers {ls : List (List Char)}
    (h : ∀ l ∈ ls, markerLineNum l = none) : parseGo ls none = [] := by
  have := parseGo_skip_none h []
  simpa using this

/-! ### Parsing the rendered document back -/

/-- The body text `saveAllNotesToFile` writes for page `p`: the page's notes
when the entry is truthy, the placeholder otherwise. -/
def writtenBody (notes : Nat → Option (List Char)) (p : Nat) : List Char :=
  match notes p with
  | some s => if s.isEmpty then placeholder else s
  | none => placeholder

theorem notesSection_eq (notes : Nat → Option (List Char)) (p : Nat) :
    notesSection notes p =
      (S "## Page " ++ natToDigits p) ++ '\n' :: '\n' ::
        (writtenBody notes p ++ ['\n', '\n']) := by
  unfold notesSection writtenBody
  cases notes p with
  | none => simp [S, List.append_assoc]
  | some s =>
    by_cases hs : s.isEmpty <;> simp [hs, S, List.append_assoc]

/-- The lines contributed by one rendered page section (the final empty line
of the document is accounted separately). -/
def secLines (notes : Nat → Option (List Char)) (p : Nat) : List (List Char) :=
  (S "## Page " ++ natToDigits p) :: [] ::
    (splitLines (writtenBody notes p) ++ [[]])

theorem mkline_no_newline (p : Nat) :
    ∀ c ∈ S "## Page " ++ natToDigits p, c ≠ '\n' := by
  intro c hc
  rcases List.mem_append.mp hc with hc | hc
  · exact (by decide : ∀ x ∈ S "## Page ", x ≠ '\n') c hc
  · exact isDigit_ne_newline (natToDigits_digits p c hc)

theorem splitLines_sections (notes : Nat → Option (List Char)) :
    ∀ (ps : List Nat) (rest : List Char),
    splitLines (((ps.map (notesSection notes)).flatten) ++ rest) =
      ((ps.map (secLines notes)).flatten) ++ splitLines rest := by
  intro ps
  induction ps with
  | nil => intro rest; simp
  | cons p ps ih =>
    intro rest
    rw [List.map_cons, List.flatten_cons, List.append_assoc, notesSection_eq]
    rw [show ((S "## Page " ++ natToDigits p) ++ '\n' :: '\n' ::
        (writtenBody notes p ++ ['\n', '\n'])) ++
        ((ps.map (notesSection notes)).flatten ++ rest) =
      (S "## Page " ++ natToDigits p) ++ '\n' ::
        ('\n' :: (writtenBody notes p ++ '\n' :: ('\n' ::
          ((ps.map (notesSection notes)).flatten ++ rest)))) by
      simp [List.append_assoc]]
    rw [splitLines_append, splitLines_no_newline (mkline_no_newline p),
      splitLines_cons_newline, splitLines_append, splitLines_cons_newline, ih]
    simp [secLines, List.append_assoc]

theorem trimJs_joinLines_append_nil (ls : List (List Char)) :
    trimJs (joinLines (ls ++ [[]])) = trimJs (joinLines ls) := by
  cases ls with
  | nil => rfl
  | cons a as =>
    rw [joinLines_append_nil_line (by simp)]
    exact trimJs_append_ws (by decide)

theorem trimJs_secBody (w : List Char) :
    trimJs (joinLines ([] :: (splitLines w ++ [[]]))) = trimJs w := by
  rw [joinLines_cons _ (by simp), List.nil_append,
    trimJs_cons_ws (by decide), trimJs_joinLines_append_nil,
    joinLines_splitLines]

theorem secBody_no_markers {notes : Nat → Option (List Char)} {p : Nat}
    (hb : ∀ l ∈ splitLines (writtenBody notes p), markerLineNum l = none) :
    ∀ l ∈ ([] :: (splitLines (writtenBody notes p) ++ [[]]) :
        List (List Char)), markerLineNum l = none := by
  intro l hl
  rcases List.mem_cons.mp hl with rfl | hl
  · exact markerLineNum_nil
  · rcases List.mem_append.mp hl with hl | hl
    · exact hb l hl
    · have : l = [] := by simpa using hl
      rw [this]
      exact markerLineNum_nil

theorem parseGo_stream (notes : Nat → Option (List Char)) :
    ∀ (ps : List Nat) (P : Nat) (acc : List (List Char)),
    (∀ p ∈ ps, ∀ l ∈ splitLines (writtenBody notes p),
      markerLineNum l = none) →
    parseGo (((ps.map (secLines notes)).flatten) ++ [[]]) (some (P, acc)) =
      (P, trimJs (joinLines acc.reverse)) ::
        ps.map (fun p => (p, trimJs (writtenBody notes p))) := by
  intro ps
  induction ps with
  | nil =>
    intro P acc hb
    rw [List.map_nil, List.flatten_nil, List.nil_append]
    simp only [parseGo, markerLineNum_nil]
    rw [List.reverse_cons, trimJs_joinLines_append_nil]
    rfl
  | cons p1 ps' ih =>
    intro P acc hb
    rw [List.map_cons, List.flatten_cons, List.append_assoc,
      show secLines notes p1 = (S "## Page " ++ natToDigits p1) :: ([] ::
        (splitLines (writtenBody notes p1) ++ [[]])) from rfl,
      List.cons_append, List.cons_append]
    simp only [parseGo, markerLineNum_marker_line p1, markerLineNum_nil]
    rw [parseGo_collect ?hnm _ p1 [[]]]
    case hnm =>
      intro l hl
      rcases List.mem_append.mp hl with hl | hl
      · exact hb p1 (List.mem_cons_self _ _) l hl
      · have hleq : l = [] := by simpa using hl
        rw [hleq]
        exact markerLineNum_nil
    rw [ih p1 _ (fun p hp => hb p (List.mem_cons_of_mem p1 hp))]
    have hhead : trimJs (joinLines
        ((splitLines (writtenBody notes p1) ++ [[]]).reverse ++ [[]]).reverse) =
        trimJs (writtenBody notes p1) := by
      have h2 : ((splitLines (writtenBody notes p1) ++ [[]]).reverse ++
          [[]]).reverse = [] :: (splitLines (writtenBody notes p1) ++ [[]]) := by
        simp
      rw [h2, trimJs_secBody]
    rw [hhead]
    rfl

theorem parseGo_stream_none (notes : Nat → Option (List Char))
    (ps : List Nat)
    (hb : ∀ p ∈ ps, ∀ l ∈ splitLines (writtenBody notes p),
      markerLineNum l = none) :
    parseGo (((ps.map (secLines notes)).flatten) ++ [[]]) none =
      ps.map (fun p => (p, trimJs (writtenBody notes p))) := by
  cases ps with
  | nil =>
    rw [List.map_nil, List.flatten_nil, List.nil_append]
    simp [parseGo, markerLineNum_nil]
  | cons p1 ps' =>
    rw [List.map_cons, List.flatten_cons, List.append_assoc,
      show secLines notes p1 = (S "## Page " ++ natToDigits p1) :: ([] ::
        (splitLines (writtenBody notes p1) ++ [[]])) from rfl,
      List.cons_append, List.cons_append]
    simp only [parseGo, markerLineNum_marker_line p1, markerLineNum_nil]
    rw [parseGo_collect ?hnm _ p1 [[]]]
    case hnm =>
      intro l hl
      rcases List.mem_append.mp hl with hl | hl
      · exact hb p1 (List.mem_cons_self _ _) l hl
      · have hleq : l = [] := by simpa using hl
        rw [hleq]
        exact markerLineNum_nil
    rw [parseGo_stream notes ps' p1 _
      (fun p hp => hb p (List.mem_cons_of_mem p1 hp))]
    have hhead : trimJs (joinLines
        ((splitLines (writtenBody notes p1) ++ [[]]).reverse ++ [[]]).reverse) =
        trimJs (writtenBody notes p1) := by
      have h2 : ((splitLines (writtenBody notes p1) ++ [[]]).reverse ++
          [[]]).reverse = [] :: (splitLines (writtenBody notes p1) ++ [[]]) := by
        simp
      rw [h2, trimJs_secBody]
    rw [hhead]
    rfl

theorem markerLineNum_header1 (name : List Char) :
    markerLineNum ('#' :: ' ' :: name) = none := by
  apply markerLineNum_none_not_prefix
  intro h
  have h2 : ('#' :: '#' :: S " Page ") <+: '#' :: ' ' :: name := h
  obtain ⟨-, h3⟩ := List.cons_prefix_cons.mp h2
  obtain ⟨h4, -⟩ := List.cons_prefix_cons.mp h3
  exact absurd h4 (by decide)

theorem markerLineNum_star (rest : List Char) :
    markerLineNum ('*' :: rest) = none := by
  apply markerLineNum_none_not_prefix
  intro h
  have h2 : ('#' :: '#' :: S " Page ") <+: '*' :: rest := h
  obtain ⟨h3, -⟩ := List.cons_prefix_cons.mp h2
  exact absurd h3 (by decide)

/-- The full parse of a document rendered by `saveAllNotesToFile`: one
assignment per page, in order, valued at the trimmed written body. -/
theorem parse_saveAll (pdfName fileName : List Char) (n : Nat)
    (notes : Nat → Option (List Char))
    (hname : ∀ c ∈ pdfName, c ≠ '\n') (hfile : ∀ c ∈ fileName, c ≠ '\n')
    (hb : ∀ p ∈ List.range' 1 n, ∀ l ∈ splitLines (writtenBody notes p),
      markerLineNum l = none) :
    parseGo (splitLines (saveAllContent pdfName fileName n notes)) none =
      (List.range' 1 n).map (fun p => (p, trimJs (writtenBody notes p))) := by
  have hform : saveAllContent pdfName fileName n notes =
      (S "# " ++ pdfName ++ S " - Notes") ++ '\n' :: ('\n' ::
        ((S "**PDF:** [[" ++ fileName ++ S "]]") ++ '\n' ::
          ((S "**Total Pages:** " ++ natToDigits n) ++ '\n' :: ('\n' ::
            (((List.range' 1 n).map (notesSection notes)).flatten))))) := by
    unfold saveAllContent
    have e1 : S " - Notes\n\n**PDF:** [[" =
        S " - Notes" ++ '\n' :: '\n' :: S "**PDF:** [[" := rfl
    have e2 : S "]]\n**Total Pages:** " =
        S "]]" ++ '\n' :: S "**Total Pages:** " := rfl
    have e3 : S "\n\n" = '\n' :: '\n' :: ([] : List Char) := rfl
    rw [e1, e2, e3]
    simp [List.append_assoc]
  rw [hform, splitLines_append, splitLines_cons_newline, splitLines_append,
    splitLines_append, splitLines_cons_newline]
  rw [← List.append_nil (((List.range' 1 n).map (notesSection notes)).flatten),
    splitLines_sections]
  rw [splitLines_no_newline (s := S "# " ++ pdfName ++ S " - Notes") ?h1,
    splitLines_no_newline (s := S "**PDF:** [[" ++ fileName ++ S "]]") ?h2,
    splitLines_no_newline (s := S "**Total Pages:** " ++ natToDigits n) ?h3]
  case h1 =>
    intro c hc
    rcases List.mem_append.mp hc with hc | hc
    · rcases List.mem_append.mp hc with hc | hc
      · exact (by decide : ∀ x ∈ S "# ", x ≠ '\n') c hc
      · exact hname c hc
    · exact (by decide : ∀ x ∈ S " - Notes", x ≠ '\n') c hc
  case h2 =>
    intro c hc
    rcases List.mem_append.mp hc with hc | hc
    · rcases List.mem_append.mp hc with hc | hc
      · exact (by decide : ∀ x ∈ S "**PDF:** [[", x ≠ '\n') c hc
      · exact hfile c hc
    · exact (by decide : ∀ x ∈ S "]]", x ≠ '\n') c hc
  case h3 =>
    intro c hc
    rcases List.mem_append.mp hc with hc | hc
    · exact (by decide : ∀ x ∈ S "**Total Pages:** ", x ≠ '\n') c hc
    · exact isDigit_ne_newline (natToDigits_digits n c hc)
  rw [show ([S "# " ++ pdfName ++ S " - Notes"] ++ ([] ::
      ([S "**PDF:** [[" ++ fileName ++ S "]]"] ++
        ([S "**Total Pages:** " ++ natToDigits n] ++ ([] ::
          (((List.range' 1 n).map (secLines notes)).flatten ++
            splitLines [])))))) =
    ([S "# " ++ pdfName ++ S " - Notes", [],
      S "**PDF:** [[" ++ fileName ++ S "]]",
      S "**Total Pages:** " ++ natToDigits n, []] ++
      (((List.range' 1 n).map (secLines notes)).flatten ++ [[]])) by
    simp [splitLines]]
  rw [parseGo_skip_none ?hh]
  case hh =>
    intro l hl
    simp only [List.mem_cons, List.not_mem_nil, or_false] at hl
    rcases hl with rfl | rfl | rfl | rfl | rfl
    · rw [show S "# " ++ pdfName ++ S " - Notes" =
        '#' :: ' ' :: (pdfName ++ S " - Notes") by simp [S]]
      exact markerLineNum_header1 _
    · exact markerLineNum_nil
    · rw [show S "**PDF:** [[" ++ fileName ++ S "]]" =
        '*' :: (S "*PDF:** [[" ++ fileName ++ S "]]") by simp [S, List.append_assoc]]
      exact markerLineNum_star _
    · rw [show S "**Total Pages:** " ++ natToDigits n =
        '*' :: (S "*Total Pages:** " ++ natToDigits n) by simp [S]]
      exact markerLineNum_star _
    · exact markerLineNum_nil
  exact parseGo_stream_none notes _ hb

/-! ### Record lookup (last assignment wins) -/

theorem lookupLast_cons_some {e : Nat × List Char} {t : List (Nat × List Char)}
    {q : Nat} {v : List Char} (h : lookupLast t q = some v) :
    lookupLast (e :: t) q = some v := by
  simp [lookupLast, h]

theorem lookupLast_cons_none {e : Nat × List Char} {t : List (Nat × List Char)}
    {q : Nat} (h : lookupLast t q = none) :
    lookupLast (e :: t) q = if e.1 = q then some e.2 else none := by
  simp [lookupLast, h]

theorem lookupLast_some_mem :
    ∀ {l : List (Nat × List Char)} {q : Nat} {v : List Char},
    lookupLast l q = some v → (q, v) ∈ l := by
  intro l
  induction l with
  | nil => intro q v h; simp [lookupLast] at h
  | cons e t ih =>
    intro q v h
    cases hlt : lookupLast t q with
    | some w =>
      rw [lookupLast_cons_some hlt] at h
      obtain rfl : w = v := Option.some.inj h
      exact List.mem_cons_of_mem e (ih hlt)
    | none =>
      rw [lookupLast_cons_none hlt] at h
      split at h
      · next heq =>
        obtain rfl : e.2 = v := Option.some.inj h
        have h2 : (q, e.2) = e := by
          obtain ⟨e1, e2⟩ := e
          simp only at heq
          rw [heq]
        rw [h2]
        exact List.mem_cons_self e t
      · exact absurd h (by simp)

theorem lookupLast_filter_map_range' (f : Nat → List Char) (q : Nat) :
    ∀ (len s : Nat),
    lookupLast (((List.range' s len).map (fun p => (p, f p))).filter
      (fun e => !(e.2 == placeholder))) q =
      (if s ≤ q ∧ q < s + len ∧ f q ≠ placeholder
       then some (f q) else none) := by
  intro len
  induction len with
  | zero =>
    intro s
    rw [if_neg (by omega)]
    rfl
  | succ m ih =>
    intro s
    rw [List.range'_succ, List.map_cons, List.filter_cons]
    by_cases hfs : f s = placeholder
    · rw [if_neg (by simp [hfs]), ih (s + 1)]
      by_cases hq : q = s
      · subst hq
        rw [if_neg (by omega), if_neg (fun h => h.2.2 hfs)]
      · by_cases hc : s + 1 ≤ q ∧ q < s + 1 + m ∧ f q ≠ placeholder
        · rw [if_pos hc, if_pos ⟨by omega, by omega, hc.2.2⟩]
        · rw [if_neg hc, if_neg (fun h => hc ⟨by omega, by omega, h.2.2⟩)]
    · rw [if_pos (by simp [hfs])]
      by_cases hc : s + 1 ≤ q ∧ q < s + 1 + m ∧ f q ≠ placeholder
      · rw [lookupLast_cons_some (by rw [ih (s + 1)]; rw [if_pos hc])]
        rw [if_pos ⟨by omega, by omega, hc.2.2⟩]
      · rw [lookupLast_cons_none (by rw [ih (s + 1)]; rw [if_neg hc])]
        by_cases hq : s = q
        · subst hq
          rw [if_pos rfl, if_pos ⟨Nat.le_refl s, by omega, hfs⟩]
        · rw [if_neg hq, if_neg (fun h => hc ⟨by omega, by omega, h.2.2⟩)]

/-- What `parseExistingNotes` recovers from a document rendered by
`saveAllNotesToFile`. -/
theorem pageNotesOf_saveAll (pdfName fileName : List Char) (n : Nat)
    (notes : Nat → Option (List Char))
    (hname : ∀ c ∈ pdfName, c ≠ '\n') (hfile : ∀ c ∈ fileName, c ≠ '\n')
    (hb : ∀ p ∈ List.range' 1 n, ∀ l ∈ splitLines (writtenBody notes p),
      markerLineNum l = none) (q : Nat) :
    pageNotesOf (saveAllContent pdfName fileName n notes) q =
      (if 1 ≤ q ∧ q < 1 + n ∧ trimJs (writtenBody notes q) ≠ placeholder
       then some (trimJs (writtenBody notes q)) else none) := by
  unfold pageNotesOf parseExistingAssigns
  rw [parse_saveAll pdfName fileName n notes hname hfile hb]
  exact lookupLast_filter_map_range'
    (fun p => trimJs (writtenBody notes p)) q n 1

/-! ### Remaining support lemmas -/

theorem upsert_empty_absent {d : List Char} {p : Nat}
    (h : firstOcc (marker p) d = none) :
    loadNotesExtract (saveNotesUpsert d p []) p = some [] := by
  rw [saveNotesUpsert_absent h]
  have hnp : newPageContent p [] = marker p ++ ['\n', '\n'] := by
    simp [newPageContent]
  rw [hnp]
  have hfo : firstOcc (marker p) (d ++ (marker p ++ ['\n', '\n'])) =
      some (d.length + 0) := by
    rw [firstOcc_none_append h ?hspan, firstOcc_zero (List.prefix_append _ _)]
    · rfl
    case hspan =>
      intro k h0 hk hcon
      exact marker_span_right p h0 hk hcon
  rw [Nat.add_zero] at hfo
  rw [loadNotesExtract_present hfo]
  have hrest : (d ++ (marker p ++ ['\n', '\n'])).drop
      (d.length + (marker p).length) = ['\n', '\n'] := by
    rw [List.drop_append, List.drop_left]
  rw [hrest]
  decide

theorem loadNotesExtract_isSome {d : List Char} {q : Nat} :
    (loadNotesExtract d q).isSome = (firstOcc (marker q) d).isSome := by
  unfold loadNotesExtract
  cases firstOcc (marker q) d <;> rfl

theorem upsert_preserves_other {d b : List Char} {p q : Nat} (hpq : p ≠ q)
    (hq : (loadNotesExtract d q).isSome)
    (hb7 : ¬ hasSub p7 b) (hbd : '$' ∉ b) :
    loadNotesExtract (saveNotesUpsert d p b) q = loadNotesExtract d q := by
  rw [loadNotesExtract_isSome] at hq
  cases hfp : firstOcc (marker p) d with
  | none => exact upsert_other_absent hfp hq
  | some i => exact upsert_other_present hpq hfp hq hb7 hbd

theorem p7_drop_not_newline {k : Nat} (hk : k < p7.length) (w : List Char) :
    ¬ p7.drop k <+: '\n' :: w := by
  intro h
  have hk7 : k < 7 := hk
  interval_cases k <;>
    · obtain ⟨hc, -⟩ := List.cons_prefix_cons.mp h
      exact absurd hc (by decide)

theorem placeholder_lines_safe :
    ∀ l ∈ splitLines placeholder, markerLineNum l = none := by
  decide

theorem parse_line_grammar {content : List Char}
    (h : ∀ l ∈ splitLines content, markerLineNum l = none) (q : Nat) :
    pageNotesOf content q = none := by
  unfold pageNotesOf parseExistingAssigns
  rw [parseGo_none_of_no_markers h]
  rfl

/-! ### Duplicate markers: first occurrence vs last assignment -/

theorem parseGo_end {ls : List (List Char)}
    (h : ∀ l ∈ ls, markerLineNum l = none) (P : Nat) (acc : List (List Char)) :
    parseGo ls (some (P, acc)) =
      [(P, trimJs (joinLines (acc.reverse ++ ls)))] := by
  have h2 := parseGo_collect h [] P acc
  rw [List.append_nil] at h2
  rw [h2]
  show [(P, trimJs (joinLines (ls.reverse ++ acc).reverse))] = _
  rw [List.reverse_append, List.reverse_reverse]

theorem duplicate_sections_loadNotes {p : Nat} {A B : List Char}
    (hA7 : ¬ hasSub p7 A) :
    loadNotesExtract (marker p ++ (A ++ '\n' :: (marker p ++ B))) p =
      some (trimJs A) := by
  have hfo : firstOcc (marker p) (marker p ++ (A ++ '\n' :: (marker p ++ B))) =
      some 0 := firstOcc_zero (List.prefix_append _ _)
  rw [loadNotesExtract_present hfo]
  have hrest : (marker p ++ (A ++ '\n' :: (marker p ++ B))).drop
      (0 + (marker p).length) = A ++ '\n' :: (marker p ++ B) := by
    rw [Nat.zero_add, List.drop_left]
  rw [hrest,
    show A ++ '\n' :: (marker p ++ B) = (A ++ ['\n']) ++ (marker p ++ B) by
      simp]
  have hfo2 : firstOcc p7 ((A ++ ['\n']) ++ (marker p ++ B)) =
      some ((A ++ ['\n']).length + 0) := by
    rw [firstOcc_none_append ?hnone ?hspan,
      firstOcc_zero (prefix_extend _ (p7_prefix_marker p))]
    · rfl
    case hnone =>
      apply no_occ_no_firstOcc
      intro t hcon
      by_cases ht : t < A.length
      · rw [List.drop_append_of_le_length (by omega)] at hcon
        by_cases hl : p7.length ≤ (A.drop t).length
        · exact not_hasSub_forall hA7 t (prefix_of_append_of_le hcon hl)
        · push_neg at hl
          exact p7_drop_not_newline hl [] (prefix_split_of_append hcon hl)
      · push_neg at ht
        by_cases ht2 : t ≤ A.length
        · have hteq : t = A.length := by omega
          rw [hteq, List.drop_left] at hcon
          have h7 : p7.length = 7 := by decide
          have hle := hcon.length_le
          simp at hle
          omega
        · have hnil : (A ++ ['\n']).drop t = [] :=
            List.drop_eq_nil_of_le (by simp; omega)
          rw [hnil] at hcon
          exact absurd (List.prefix_nil.mp hcon) (by decide)
    case hspan =>
      intro k h0 hk hcon
      exact p7_span_right h0 hk hcon
  rw [hfo2, Option.getD_some, Nat.add_zero, List.take_left]
  exact congrArg some (trimJs_append_ws (by decide))

theorem duplicate_sections_parse {p : Nat} {A B : List Char}
    (hAl : ∀ l ∈ splitLines A, markerLineNum l = none)
    (hBl : ∀ l ∈ splitLines B, markerLineNum l = none)
    (hApl : trimJs A ≠ placeholder) (hBpl : trimJs B ≠ placeholder) :
    pageNotesOf (marker p ++ (A ++ '\n' :: (marker p ++ B))) p =
      some (trimJs B) := by
  unfold pageNotesOf parseExistingAssigns
  have hdoc : marker p ++ (A ++ '\n' :: (marker p ++ B)) =
      (S "## Page " ++ natToDigits p) ++ '\n' :: (A ++ '\n' ::
        ((S "## Page " ++ natToDigits p) ++ '\n' :: B)) := by
    simp [marker, S, List.append_assoc]
  rw [hdoc, splitLines_append, splitLines_no_newline (mkline_no_newline p),
    splitLines_append, splitLines_append,
    splitLines_no_newline (mkline_no_newline p)]
  rw [show ([S "## Page " ++ natToDigits p] ++ (splitLines A ++
      ([S "## Page " ++ natToDigits p] ++ splitLines B))) =
    (S "## Page " ++ natToDigits p) :: (splitLines A ++
      ((S "## Page " ++ natToDigits p) :: splitLines B)) from rfl]
  simp only [parseGo, markerLineNum_marker_line p]
  rw [parseGo_collect hAl _ p []]
  simp only [parseGo, markerLineNum_marker_line p]
  rw [parseGo_end hBl]
  simp only [List.append_nil, List.reverse_reverse, List.reverse_nil,
    List.nil_append, joinLines_splitLines]
  rw [show ([(p, trimJs A)] ++ [(p, trimJs B)]) =
    [(p, trimJs A), (p, trimJs B)] from rfl]
  rw [List.filter_cons, if_pos (by simp [beq_eq_false_iff_ne.mpr hApl]),
    List.filter_cons, if_pos (by simp [beq_eq_false_iff_ne.mpr hBpl]),
    List.filter_nil]
  have hinner : lookupLast [(p, trimJs B)] p = some (trimJs B) := by
    simp [lookupLast]
  rw [lookupLast_cons_some hinner]

/-! ### The placeholder round trip -/

theorem placeholder_dropped (pdfName fileName : List Char) (n : Nat)
    (notes : Nat → Option (List Char))
    (hname : ∀ c ∈ pdfName, c ≠ '\n') (hfile : ∀ c ∈ fileName, c ≠ '\n')
    (hb : ∀ p ∈ List.range' 1 n, ∀ l ∈ splitLines (writtenBody notes p),
      markerLineNum l = none)
    (p : Nat) (hpl : notes p = some placeholder) :
    pageNotesOf (saveAllContent pdfName fileName n notes) p = none := by
  rw [pageNotesOf_saveAll pdfName fileName n notes hname hfile hb]
  rw [if_neg]
  rintro ⟨-, -, hne⟩
  apply hne
  have hwb : writtenBody notes p = placeholder := by
    unfold writtenBody
    rw [hpl]
    decide
  rw [hwb]
  decide

theorem placeholder_written (pdfName fileName : List Char) (n : Nat)
    (notes : Nat → Option (List Char)) (p : Nat)
    (hp1 : 1 ≤ p) (hpn : p ≤ n) (hnone : notes p = none) :
    ∃ pre suf, saveAllContent pdfName fileName n notes =
      pre ++ ((S "## Page " ++ natToDigits p) ++ '\n' :: '\n' ::
        (placeholder ++ ['\n', '\n'])) ++ suf := by
  have hsplit : List.range' 1 n =
      List.range' 1 (p - 1) ++ p :: List.range' (p + 1) (n - p) := by
    have h1 := List.range'_append 1 (p - 1) (n - p + 1) 1
    rw [show 1 + 1 * (p - 1) = p by omega,
      show (n - p + 1) + (p - 1) = n by omega] at h1
    rw [← h1, List.range'_succ]
  unfold saveAllContent
  rw [hsplit, List.map_append, List.map_cons, List.flatten_append,
    List.flatten_cons, notesSection_eq]
  have hwb : writtenBody notes p = placeholder := by
    unfold writtenBody
    rw [hnone]
  rw [hwb]
  refine ⟨S "# " ++ pdfName ++ S " - Notes\n\n**PDF:** [[" ++ fileName ++
    S "]]\n**Total Pages:** " ++ natToDigits n ++ S "\n\n" ++
    ((List.range' 1 (p - 1)).map (notesSection notes)).flatten,
    ((List.range' (p + 1) (n - p)).map (notesSection notes)).flatten, ?_⟩
  simp [List.append_assoc]

/-! ### The autosave scheduler (`debouncedSave` and `onClose`) -/

/-- The rendering environment of `saveAllNotesToFile`: PDF base name, file
name, and the page count of the open PDF.  `currentPdfFile` (which yields
the two names) and `currentNotesFile` survive `onClose`; `currentPdf`
(which yields the page count) does not. -/
structure Env where
  pdfName : List Char
  fileName : List Char
  numPages : Nat

/-- The document text a flush writes while the PDF is open. -/
def render (e : Env) (s : Nat → Option (List Char)) : List Char :=
  saveAllContent e.pdfName e.fileName e.numPages s

/-- Scheduler state: the armed `setTimeout` deadline (if any), the current
in-memory page map, whether `this.currentPdf` is still set (`onClose` nulls
it, after which `this.currentPdf?.numPages || 0` is 0), and the log of
contents written so far. -/
structure SchedState where
  deadline : Option Nat
  cur : Nat → Option (List Char)
  pdfOpen : Bool
  writes : List (List Char)

/-- What `saveAllNotesToFile` writes from state `d`: the full render while
the PDF is open, and — once `this.currentPdf` has been nulled — a document
rendered with page count `this.currentPdf?.numPages || 0 = 0`, i.e. a
header with `**Total Pages:** 0` and no page sections. -/
def stateRender (e : Env) (d : SchedState) : List Char :=
  saveAllContent e.pdfName e.fileName (if d.pdfOpen then e.numPages else 0) d.cur

/-- Fire the armed timer if its deadline has passed by time `t` (the timer
callback runs `saveAllNotesToFile` on the then-current state). -/
def flushDue (e : Env) (t : Nat) (d : SchedState) : SchedState :=
  match d.deadline with
  | some dl =>
    if dl ≤ t then
      { deadline := none, cur := d.cur, pdfOpen := d.pdfOpen,
        writes := d.writes ++ [stateRender e d] }
    else d
  | none => d

/-- A mutation event at time `t` carrying the new in-memory state: the
editor update listener stores the text in `pageNotes` and calls
`debouncedSave`, which does `clearTimeout` and then arms a fresh
`setTimeout` 1000 ms out. -/
def onMutation (e : Env) (t : Nat) (s : Nat → Option (List Char))
    (d : SchedState) : SchedState :=
  let d2 := flushDue e t d
  { deadline := some (t + 1000), cur := s, pdfOpen := d2.pdfOpen,
    writes := d2.writes }

/-- `onClose` at time `t`: when `autoSaveOnClose` is set (and a notes file
is open) it saves the current state synchronously, and then nulls
`this.currentPdf`.  The armed debounce timer is left untouched — the code
has no `clearTimeout` on the close path — and `this.currentNotesFile` is
not cleared either, so a deadline that later comes due still writes, now
with the nulled PDF. -/
def onCloseEvent (e : Env) (autoSaveOnClose : Bool) (t : Nat)
    (d : SchedState) : SchedState :=
  let d2 := flushDue e t d
  let d3 :=
    if autoSaveOnClose then
      { deadline := d2.deadline, cur := d2.cur, pdfOpen := d2.pdfOpen,
        writes := d2.writes ++ [stateRender e d2] }
    else d2
  { deadline := d3.deadline, cur := d3.cur, pdfOpen := false,
    writes := d3.writes }

def runMutations (e : Env) (evs : List (Nat × (Nat → Option (List Char))))
    (d : SchedState) : SchedState :=
  evs.foldl (fun d ev => onMutation e ev.1 ev.2 d) d

/-- Let the system go quiescent: an armed timer eventually fires. -/
def finishRun (e : Env) (d : SchedState) : SchedState :=
  match d.deadline with
  | some _ =>
    { deadline := none, cur := d.cur, pdfOpen := d.pdfOpen,
      writes := d.writes ++ [stateRender e d] }
  | none => d

def initState (s0 : Nat → Option (List Char)) : SchedState :=
  { deadline := none, cur := s0, pdfOpen := true, writes := [] }

/-- Successive events each strictly less than the debounce interval
(1000 ms) after the previous one. -/
def spacedFrom : Nat → List (Nat × (Nat → Option (List Char))) → Prop
  | _, [] => True
  | t, (t2, _) :: r => t ≤ t2 ∧ t2 < t + 1000 ∧ spacedFrom t2 r

/-- The in-memory state after the last of the events. -/
def lastState (s : Nat → Option (List Char)) :
    List (Nat × (Nat → Option (List Char))) → Nat → Option (List Char)
  | [] => s
  | (_, s2) :: r => lastState s2 r

/-- The time of the last event. -/
def lastTime (t : Nat) : List (Nat × (Nat → Option (List Char))) → Nat
  | [] => t
  | (t2, _) :: r => lastTime t2 r

theorem runMutations_pending (e : Env) :
    ∀ (evs : List (Nat × (Nat → Option (List Char)))) (t : Nat)
      (s : Nat → Option (List Char)) (o : Bool) (w : List (List Char)),
    spacedFrom t evs →
    runMutations e evs ⟨some (t + 1000), s, o, w⟩ =
      ⟨some (lastTime t evs + 1000), lastState s evs, o, w⟩ := by
  intro evs
  induction evs with
  | nil => intro t s o w _; rfl
  | cons ev r ih =>
    obtain ⟨t2, s2⟩ := ev
    intro t s o w hsp
    obtain ⟨h1, h2, h3⟩ := hsp
    have hstep : onMutation e t2 s2 ⟨some (t + 1000), s, o, w⟩ =
        ⟨some (t2 + 1000), s2, o, w⟩ := by
      unfold onMutation flushDue
      simp only
      rw [if_neg (by omega)]
    unfold runMutations at ih ⊢
    rw [List.foldl_cons, hstep]
    exact ih t2 s2 o w h3

/-- Debounce coalescing: events spaced closer than the interval produce,
after quiescence, exactly one write, holding the state after the last
event. -/
theorem debounce_coalesces (e : Env) (s0 s1 : Nat → Option (List Char))
    (t1 : Nat) (r : List (Nat × (Nat → Option (List Char))))
    (hsp : spacedFrom t1 r) :
    (finishRun e (runMutations e ((t1, s1) :: r) (initState s0))).writes =
      [render e (lastState s1 r)] := by
  unfold runMutations
  rw [List.foldl_cons]
  have hstep : onMutation e t1 s1 (initState s0) =
      ⟨some (t1 + 1000), s1, true, []⟩ := rfl
  rw [hstep]
  have h2 := runMutations_pending e r t1 s1 true [] hsp
  unfold runMutations at h2
  rw [h2]
  rfl

/-- The post-close render: with `this.currentPdf` nulled,
`saveAllNotesToFile` compiles a page count of 0, so the written document is
the header alone — `**Total Pages:** 0` and no page sections. -/
theorem header_only_render (p f : List Char)
    (notes : Nat → Option (List Char)) :
    saveAllContent p f 0 notes =
      S "# " ++ p ++ S " - Notes\n\n**PDF:** [[" ++ f ++
        S "]]\n**Total Pages:** 0\n\n" := by
  unfold saveAllContent
  rw [show List.range' 1 0 = ([] : List Nat) from rfl]
  simp only [List.map_nil, List.flatten_nil]
  rw [show natToDigits 0 = S "0" from rfl]
  simp only [List.append_assoc, List.append_nil]
  rw [(by decide : S "]]\n**Total Pages:** " ++ (S "0" ++ S "\n\n") =
      S "]]\n**Total Pages:** 0\n\n")]

/-- Close before the debounce interval elapsed: one write happens
synchronously at close with the latest state, but the timer is not
cancelled, so after quiescence a second write has occurred — and because
`onClose` nulled `this.currentPdf`, that second write renders with page
count 0: a header-only document that destroys the page sections. -/
theorem close_without_cancel (e : Env) (s0 s1 : Nat → Option (List Char))
    (t1 tc : Nat) (r : List (Nat × (Nat → Option (List Char))))
    (hsp : spacedFrom t1 r) (hc2 : tc < lastTime t1 r + 1000) :
    (onCloseEvent e true tc
        (runMutations e ((t1, s1) :: r) (initState s0))).writes =
      [render e (lastState s1 r)] ∧
    (finishRun e (onCloseEvent e true tc
        (runMutations e ((t1, s1) :: r) (initState s0)))).writes =
      [render e (lastState s1 r),
       saveAllContent e.pdfName e.fileName 0 (lastState s1 r)] := by
  have hrun : runMutations e ((t1, s1) :: r) (initState s0) =
      ⟨some (lastTime t1 r + 1000), lastState s1 r, true, []⟩ := by
    unfold runMutations
    rw [List.foldl_cons]
    have hstep : onMutation e t1 s1 (initState s0) =
        ⟨some (t1 + 1000), s1, true, []⟩ := rfl
    rw [hstep]
    have h2 := runMutations_pending e r t1 s1 true [] hsp
    unfold runMutations at h2
    rw [h2]
  rw [hrun]
  have hcond : ¬ (lastTime t1 r + 1000 ≤ tc) := by omega
  have hflush : flushDue e tc
      ⟨some (lastTime t1 r + 1000), lastState s1 r, true, []⟩ =
      ⟨some (lastTime t1 r + 1000), lastState s1 r, true, []⟩ := by
    unfold flushDue
    simp only
    rw [if_neg hcond]
  have hclose : onCloseEvent e true tc
      ⟨some (lastTime t1 r + 1000), lastState s1 r, true, []⟩ =
      ⟨some (lastTime t1 r + 1000), lastState s1 r, false,
        [render e (lastState s1 r)]⟩ := by
    simp only [onCloseEvent, hflush, if_true]
    rfl
  rw [hclose]
  exact ⟨rfl, rfl⟩

/-! ### The claims -/

/-- Freedom from the ECMAScript LineTerminator characters other than
`'\n'`: CR (U+000D), LS (U+2028) and PS (U+2029).  The `m`-flag anchors of
`/^## Page (\d+)$/gm` match around all four terminators while `splitLines`
splits at `'\n'` only, so a marker line delimited by CR, LS or PS is
recognised by `parseExistingNotes` but not by the line model; on strings
satisfying this predicate the model is exact. -/
def noAltLineTerm (s : List Char) : Prop :=
  ∀ c ∈ s, c.toNat ≠ 13 ∧ c.toNat ≠ 8232 ∧ c.toNat ≠ 8233

instance (s : List Char) : Decidable (noAltLineTerm s) := by
  unfold noAltLineTerm; infer_instance

/-- Counterexample to unconditional idempotence of the upsert: on an empty
document the first upsert appends a section with a trailing blank line,
while the second upsert replaces it by the trimmed text, so the two results
differ. -/
theorem C1_counterexample :
    saveNotesUpsert (saveNotesUpsert [] 1 (S "hi")) 1 (S "hi") ≠
      saveNotesUpsert [] 1 (S "hi") := by decide

/-- Claim C1 (corrected): `saveNotes` is idempotent only once the page
already has a section, and only for bodies that contain no `"## Page"`
substring, no dollar sign, and do not trim to the empty string; under those
hypotheses applying the upsert twice equals applying it once. -/
theorem C1_upsert_idem (d b : List Char) (p : Nat)
    (hfo : (firstOcc (marker p) d).isSome)
    (hb7 : ¬ hasSub p7 b) (hbd : '$' ∉ b) (hbe : trimEnd b ≠ []) :
    saveNotesUpsert (saveNotesUpsert d p b) p b = saveNotesUpsert d p b :=
  upsert_idem_present hfo hb7 hbd hbe

/-- Witness for C1 at a concrete present-section document and a plain body. -/
theorem C1_witness :
    saveNotesUpsert (saveNotesUpsert (S "## Page 1\nold\n\n") 1 (S "hi")) 1
        (S "hi") =
      saveNotesUpsert (S "## Page 1\nold\n\n") 1 (S "hi") :=
  C1_upsert_idem (S "## Page 1\nold\n\n") (S "hi") 1
    (by decide) (by decide) (by decide) (by decide)

/-- Counterexample to the unconditional round trip: a body with surrounding
spaces is written verbatim but comes back trimmed by `parseExistingNotes`. -/
theorem C2_counterexample :
    pageNotesOf (saveAllContent (S "Doc") (S "Doc.pdf") 1
        (applyUpserts [(1, S " hi ")])) 1 ≠ some (S " hi ") := by decide

/-- Claim C2 (corrected): for a document built by `saveAllNotesToFile` from
a sequence of per-page upserts, re-parsing recovers the last body upserted
for an in-range page, provided the metadata contains no line terminator,
no body contains a marker-shaped line or a line terminator other than
`'\n'` (around which the `m`-flag anchors would recognise further
markers), and the body in question is non-empty, already trimmed, and
distinct from the placeholder. -/
theorem C2_roundtrip (pdfName fileName : List Char) (n : Nat)
    (ups : List (Nat × List Char)) (q : Nat) (b : List Char)
    (hname : ∀ c ∈ pdfName, c ≠ '\n') (hfile : ∀ c ∈ fileName, c ≠ '\n')
    (hna : noAltLineTerm pdfName) (hfa : noAltLineTerm fileName)
    (hlines : ∀ pr ∈ ups, ∀ l ∈ splitLines pr.2, markerLineNum l = none)
    (halt : ∀ pr ∈ ups, noAltLineTerm pr.2)
    (hq1 : 1 ≤ q) (hqn : q ≤ n)
    (hlast : lookupLast ups q = some b)
    (hbt : trimJs b = b) (hbe : b ≠ []) (hbp : b ≠ placeholder) :
    pageNotesOf (saveAllContent pdfName fileName n (applyUpserts ups)) q =
      some b := by
  have hwall : ∀ p2, ∀ l ∈ splitLines (writtenBody (applyUpserts ups) p2),
      markerLineNum l = none := by
    intro p2 l hl
    cases hup : lookupLast ups p2 with
    | none =>
      simp only [writtenBody, applyUpserts, hup] at hl
      exact placeholder_lines_safe l hl
    | some s =>
      simp only [writtenBody, applyUpserts, hup] at hl
      by_cases hse : s.isEmpty = true
      · rw [if_pos hse] at hl
        exact placeholder_lines_safe l hl
      · rw [if_neg hse] at hl
        exact hlines (p2, s) (lookupLast_some_mem hup) l hl
  have hwq : writtenBody (applyUpserts ups) q = b := by
    have hne : ¬ b.isEmpty = true := by
      cases b with
      | nil => exact absurd rfl hbe
      | cons c t => simp
    simp only [writtenBody, applyUpserts, hlast, if_neg hne]
  rw [pageNotesOf_saveAll pdfName fileName n (applyUpserts ups) hname hfile
    (fun p _ => hwall p) q, hwq, hbt, if_pos ⟨hq1, by omega, hbp⟩]

/-- Witness for C2 with a single upsert of a plain body. -/
theorem C2_witness :
    pageNotesOf (saveAllContent (S "Doc") (S "Doc.pdf") 1
        (applyUpserts [(1, S "hi")])) 1 = some (S "hi") :=
  C2_roundtrip (S "Doc") (S "Doc.pdf") 1 [(1, S "hi")] 1 (S "hi")
    (by decide) (by decide) (by decide) (by decide) (by decide) (by decide)
    (by decide) (by decide) (by decide) (by decide) (by decide) (by decide)

/-- Counterexample to the empty-body round trip: when page 1 already has a
section, upserting the empty body leaves `"## Page 1"` with no newline, the
extraction regex finds no match, and the page reads back as absent. -/
theorem C3_counterexample :
    loadNotesExtract (saveNotesUpsert (S "## Page 1\nold\n\n") 1 []) 1 =
      none := by decide

/-- Claim C3 (corrected): the empty body round-trips as empty text only
when the page has no existing section — the upsert then appends
`"## Page p\n\n\n"` and extraction returns the empty string. -/
theorem C3_empty_body (d : List Char) (p : Nat)
    (h : firstOcc (marker p) d = none) :
    loadNotesExtract (saveNotesUpsert d p []) p = some [] :=
  upsert_empty_absent h

/-- Witness for C3 on a document without a section for page 1. -/
theorem C3_witness :
    loadNotesExtract (saveNotesUpsert (S "# PDF Notes\n\n") 1 []) 1 =
      some [] :=
  C3_empty_body (S "# PDF Notes\n\n") 1 (by decide)

/-- Counterexample to unconditional section isolation: a body containing a
`"## Page 2"` marker line hijacks the extraction of page 2, which changes
even though only page 1 was upserted. -/
theorem C4_counterexample :
    loadNotesExtract (saveNotesUpsert (S "## Page 1\nold\n\n## Page 2\ny\n\n")
        1 (S "A\n## Page 2\nML")) 2 ≠
      loadNotesExtract (S "## Page 1\nold\n\n## Page 2\ny\n\n") 2 := by decide

/-- Claim C4 (corrected): upserting page `p` leaves the extracted body of
every other present page `q` unchanged, provided the new body contains no
`"## Page"` substring and no dollar sign. -/
theorem C4_section_isolation (d b : List Char) (p q : Nat) (hpq : p ≠ q)
    (hq : (loadNotesExtract d q).isSome)
    (hb7 : ¬ hasSub p7 b) (hbd : '$' ∉ b) :
    loadNotesExtract (saveNotesUpsert d p b) q = loadNotesExtract d q :=
  upsert_preserves_other hpq hq hb7 hbd

/-- Witness for C4: upserting a plain body for page 1 leaves page 2 intact. -/
theorem C4_witness :
    loadNotesExtract (saveNotesUpsert (S "## Page 1\nold\n\n## Page 2\ny\n\n")
        1 (S "new")) 2 =
      loadNotesExtract (S "## Page 1\nold\n\n## Page 2\ny\n\n") 2 :=
  C4_section_isolation (S "## Page 1\nold\n\n## Page 2\ny\n\n") (S "new") 1 2
    (by decide) (by decide) (by decide) (by decide)

/-- Claim C5 (confirmed): mutation events each arriving within less than
1000 ms of the previous one produce, once the system goes quiescent,
exactly one write, whose content renders the state after the last event. -/
theorem C5_debounce_coalesces (e : Env) (s0 s1 : Nat → Option (List Char))
    (t1 : Nat) (r : List (Nat × (Nat → Option (List Char))))
    (hsp : spacedFrom t1 r) :
    (finishRun e (runMutations e ((t1, s1) :: r) (initState s0))).writes =
      [render e (lastState s1 r)] :=
  debounce_coalesces e s0 s1 t1 r hsp

/-- Witness for C5: two mutations 500 ms apart yield a single write of the
later state. -/
theorem C5_witness :
    spacedFrom 0 [(500, applyUpserts [(1, S "b")])] ∧
    (finishRun ⟨S "Doc", S "Doc.pdf", 1⟩
        (runMutations ⟨S "Doc", S "Doc.pdf", 1⟩
          ((0, applyUpserts [(1, S "a")]) ::
            [(500, applyUpserts [(1, S "b")])])
          (initState (applyUpserts [])))).writes =
      [render ⟨S "Doc", S "Doc.pdf", 1⟩
        (lastState (applyUpserts [(1, S "a")])
          [(500, applyUpserts [(1, S "b")])])] :=
  ⟨⟨by omega, by omega, trivial⟩,
   C5_debounce_coalesces ⟨S "Doc", S "Doc.pdf", 1⟩ (applyUpserts [])
     (applyUpserts [(1, S "a")]) 0 [(500, applyUpserts [(1, S "b")])]
     ⟨by omega, by omega, trivial⟩⟩

/-- Counterexample to the cancel-on-close claim: a mutation at 0 ms
followed by a close at 500 ms leaves the debounce timer armed, so after
quiescence two writes have occurred instead of one. -/
theorem C6_counterexample :
    (finishRun ⟨S "D", S "D.pdf", 1⟩
        (onCloseEvent ⟨S "D", S "D.pdf", 1⟩ true 500
          (runMutations ⟨S "D", S "D.pdf", 1⟩ [(0, applyUpserts [(1, S "a")])]
            (initState (applyUpserts []))))).writes.length ≠ 1 := by decide

/-- Claim C6 (corrected): closing before the debounce interval elapses does
write the latest state synchronously, but the pending timer is not
cancelled, so after quiescence a second write has occurred; and since
`onClose` nulled `this.currentPdf`, that second write is the header-only
document with `**Total Pages:** 0` and no page sections — not a repeat of
the first. -/
theorem C6_close_no_cancel (e : Env) (s0 s1 : Nat → Option (List Char))
    (t1 tc : Nat) (r : List (Nat × (Nat → Option (List Char))))
    (hsp : spacedFrom t1 r) (hc2 : tc < lastTime t1 r + 1000) :
    ((onCloseEvent e true tc
        (runMutations e ((t1, s1) :: r) (initState s0))).writes =
      [render e (lastState s1 r)] ∧
    (finishRun e (onCloseEvent e true tc
        (runMutations e ((t1, s1) :: r) (initState s0)))).writes =
      [render e (lastState s1 r),
       saveAllContent e.pdfName e.fileName 0 (lastState s1 r)]) ∧
    saveAllContent e.pdfName e.fileName 0 (lastState s1 r) =
      S "# " ++ e.pdfName ++ S " - Notes\n\n**PDF:** [[" ++ e.fileName ++
        S "]]\n**Total Pages:** 0\n\n" :=
  ⟨close_without_cancel e s0 s1 t1 tc r hsp hc2,
   header_only_render e.pdfName e.fileName (lastState s1 r)⟩

/-- Witness for C6: one mutation at 0 ms, close at 500 ms. -/
theorem C6_witness :
    ((onCloseEvent ⟨S "D", S "D.pdf", 1⟩ true 500
        (runMutations ⟨S "D", S "D.pdf", 1⟩ ((0, applyUpserts [(1, S "a")]) :: [])
          (initState (applyUpserts [])))).writes =
      [render ⟨S "D", S "D.pdf", 1⟩ (lastState (applyUpserts [(1, S "a")]) [])] ∧
    (finishRun ⟨S "D", S "D.pdf", 1⟩
        (onCloseEvent ⟨S "D", S "D.pdf", 1⟩ true 500
          (runMutations ⟨S "D", S "D.pdf", 1⟩ ((0, applyUpserts [(1, S "a")]) :: [])
            (initState (applyUpserts []))))).writes =
      [render ⟨S "D", S "D.pdf", 1⟩ (lastState (applyUpserts [(1, S "a")]) []),
       saveAllContent (S "D") (S "D.pdf") 0
         (lastState (applyUpserts [(1, S "a")]) [])]) ∧
    saveAllContent (S "D") (S "D.pdf") 0
        (lastState (applyUpserts [(1, S "a")]) []) =
      S "# " ++ S "D" ++ S " - Notes\n\n**PDF:** [[" ++ S "D.pdf" ++
        S "]]\n**Total Pages:** 0\n\n" :=
  C6_close_no_cancel ⟨S "D", S "D.pdf", 1⟩ (applyUpserts [])
    (applyUpserts [(1, S "a")]) 0 500 [] trivial (by decide)

/-- Counterexample to first-occurrence canonicity: on a document with two
`"## Page 1"` sections, `loadNotes` extracts the first body while
`parseExistingNotes` keeps the last assignment, so the two disagree. -/
theorem C7_counterexample :
    loadNotesExtract (S "## Page 1\nA\n## Page 1\nB") 1 = some (S "A") ∧
    pageNotesOf (S "## Page 1\nA\n## Page 1\nB") 1 = some (S "B") := by decide

/-- Claim C7 (corrected): neither mapper crashes on duplicate markers, but
they disagree on which occurrence is canonical: `loadNotes` returns the
first section body, while `parseExistingNotes` keeps the last one.  The
two bodies carry no `'\n'`-line shaped like a marker and no line
terminator other than `'\n'` (around which the `m`-flag anchors would
recognise further markers). -/
theorem C7_duplicate_markers (p : Nat) (A B : List Char)
    (hA7 : ¬ hasSub p7 A)
    (hAl : ∀ l ∈ splitLines A, markerLineNum l = none)
    (hBl : ∀ l ∈ splitLines B, markerLineNum l = none)
    (hAalt : noAltLineTerm A) (hBalt : noAltLineTerm B)
    (hApl : trimJs A ≠ placeholder) (hBpl : trimJs B ≠ placeholder) :
    loadNotesExtract (marker p ++ (A ++ '\n' :: (marker p ++ B))) p =
        some (trimJs A) ∧
      pageNotesOf (marker p ++ (A ++ '\n' :: (marker p ++ B))) p =
        some (trimJs B) :=
  ⟨duplicate_sections_loadNotes hA7,
   duplicate_sections_parse hAl hBl hApl hBpl⟩

/-- Witness for C7 on two concrete duplicate sections. -/
theorem C7_witness :
    loadNotesExtract (marker 1 ++ (S "one" ++ '\n' :: (marker 1 ++ S "two")))
        1 = some (trimJs (S "one")) ∧
      pageNotesOf (marker 1 ++ (S "one" ++ '\n' :: (marker 1 ++ S "two")))
        1 = some (trimJs (S "two")) :=
  C7_duplicate_markers 1 (S "one") (S "two")
    (by decide) (by decide) (by decide) (by decide) (by decide)
    (by decide) (by decide)

/-- Counterexample to the marker-grammar claim: `loadNotes` matches the
marker string in the middle of a line, so a document none of whose lines
matches the marker grammar still yields an extraction for page 1. -/
theorem C8_counterexample :
    (∀ l ∈ splitLines (S "intro ## Page 1\nhello"), markerLineNum l = none) ∧
    loadNotesExtract (S "intro ## Page 1\nhello") 1 = some (S "hello") := by
  decide

/-- Claim C8 (corrected): only `parseExistingNotes` honours the line-exact
marker grammar — a document whose only line terminator is `'\n'` and none
of whose lines matches `^## Page (\d+)$` parses to an empty page map —
whereas `loadNotes`/`saveNotes` match the marker string anywhere,
including mid-line. -/
theorem C8_marker_grammar (content : List Char) (q : Nat)
    (h : ∀ l ∈ splitLines content, markerLineNum l = none)
    (halt : noAltLineTerm content) :
    pageNotesOf content q = none :=
  parse_line_grammar h q

/-- Witness for C8 on a marker-free document. -/
theorem C8_witness :
    pageNotesOf (S "hello\nworld") 1 = none :=
  C8_marker_grammar (S "hello\nworld") 1 (by decide) (by decide)

/-- Counterexample to invalid-page rejection: `saveNotes` accepts page 0
and modifies the document. -/
theorem C9_counterexample :
    saveNotesUpsert (S "# PDF Notes\n\n") 0 (S "x") ≠
      S "# PDF Notes\n\n" := by decide

/-- Claim C9 (corrected): no page validation exists — for any page number
`p` (including 0) with no section in the document, the upsert appends a
fresh `"## Page p"` section and changes the document, and the extraction
returns `none` rather than an error. -/
theorem C9_no_page_validation (d b : List Char) (p : Nat)
    (h : firstOcc (marker p) d = none) :
    saveNotesUpsert d p b = d ++ newPageContent p b ∧
    loadNotesExtract d p = none ∧
    saveNotesUpsert d p b ≠ d := by
  refine ⟨saveNotesUpsert_absent h b, loadNotesExtract_absent h, ?_⟩
  rw [saveNotesUpsert_absent h b]
  intro hcon
  have hlen := congrArg List.length hcon
  rw [List.length_append] at hlen
  have h8 := marker_length p
  have hnp : (newPageContent p b).length =
      (marker p).length + b.length + 2 := by
    simp [newPageContent]
    omega
  omega

/-- Witness for C9 at page 0 on a marker-free document. -/
theorem C9_witness :
    saveNotesUpsert (S "notes\n") 0 (S "y") =
        S "notes\n" ++ newPageContent 0 (S "y") ∧
      loadNotesExtract (S "notes\n") 0 = none ∧
      saveNotesUpsert (S "notes\n") 0 (S "y") ≠ S "notes\n" :=
  C9_no_page_validation (S "notes\n") (S "y") 0 (by decide)

/-- Claim C10 (confirmed): a stored body equal to the placeholder text is
dropped when the document is re-parsed, and a page with no stored body is
written out with exactly the placeholder section.  The metadata and the
written bodies carry no marker-shaped `'\n'`-line and no line terminator
other than `'\n'` (around which the `m`-flag anchors would recognise
further markers). -/
theorem C10_placeholder_collision (pdfName fileName : List Char) (n : Nat)
    (notes : Nat → Option (List Char))
    (hname : ∀ c ∈ pdfName, c ≠ '\n') (hfile : ∀ c ∈ fileName, c ≠ '\n')
    (hna : noAltLineTerm pdfName) (hfa : noAltLineTerm fileName)
    (hb : ∀ p ∈ List.range' 1 n, ∀ l ∈ splitLines (writtenBody notes p),
      markerLineNum l = none)
    (halt : ∀ p ∈ List.range' 1 n, noAltLineTerm (writtenBody notes p))
    (p : Nat) (hp1 : 1 ≤ p) (hpn : p ≤ n) :
    (notes p = some placeholder →
      pageNotesOf (saveAllContent pdfName fileName n notes) p = none) ∧
    (notes p = none →
      ∃ pre suf, saveAllContent pdfName fileName n notes =
        pre ++ ((S "## Page " ++ natToDigits p) ++ '\n' :: '\n' ::
          (placeholder ++ ['\n', '\n'])) ++ suf) :=
  ⟨fun hpl => placeholder_dropped pdfName fileName n notes hname hfile hb p hpl,
   fun hnone => placeholder_written pdfName fileName n notes p hp1 hpn hnone⟩

/-- Witness for C10: page 1 stores the placeholder text and is parsed back
as absent; page 2 of the same map is unset. -/
theorem C10_witness :
    (applyUpserts [(1, placeholder)] 1 = some placeholder →
      pageNotesOf (saveAllContent (S "D") (S "D.pdf") 2
        (applyUpserts [(1, placeholder)])) 1 = none) ∧
    (applyUpserts [(1, placeholder)] 1 = none →
      ∃ pre suf, saveAllContent (S "D") (S "D.pdf") 2
          (applyUpserts [(1, placeholder)]) =
        pre ++ ((S "## Page " ++ natToDigits 1) ++ '\n' :: '\n' ::
          (placeholder ++ ['\n', '\n'])) ++ suf) :=
  C10_placeholder_collision (S "D") (S "D.pdf") 2 (applyUpserts [(1, placeholder)])
    (by decide) (by decide) (by decide) (by decide) (by decide) (by decide)
    1 (by decide) (by decide)

end PdfNotes
